import Mathlib

/-!
Verification of the in-memory HNSW vector index of this repository:
`src/lib/src/idx/trees/hnsw.rs` (graph engine and index facade) and
`src/lib/src/idx/trees/vector.rs` (vector value and distance kernel).

The development contains three models, each shallowly embedding the part of
the source that the properties below are about:

* `Vbits`: a bit-level model of `TreeVector` equality (`impl PartialEq`) and
  hashing (`impl Hash`).  `f64`/`f32` elements are represented by their
  IEEE-754 bit patterns, because both the hash and the NaN/signed-zero
  behaviour of equality are functions of the bit pattern.

* `Vreal`: a value-level model of the eight distance functions, with `f64`
  arithmetic idealised as exact real arithmetic (the standard exact-model
  reading of floating-point code; rounding is not modelled).

* `Engine`: an executable functional model of the `Hnsw` graph engine and the
  `HnswIndex` facade, generic over the vector type `V` and the distance value
  type `D` (a linear order).  The `unreachable!` branches of the source are
  modelled by `Option.none`.  Randomness (`get_random_level`) is modelled by
  passing the drawn level as an input.  `HashMap` iteration order is
  unspecified in Rust; the model fixes insertion order, which the layer maps
  of the engine use deterministically.
-/

set_option maxHeartbeats 1000000

namespace HnswVerif

/-! ## Part 1: bit-level model of `TreeVector` equality and hashing

Source: `impl Hash for TreeVector` and `impl PartialEq for TreeVector`
(vector.rs lines 32-84).  A float element is its IEEE-754 bit pattern (a
`Nat` below `2^64` resp. `2^32`); an integer element is a mathematical
integer.  The hasher is modelled by the exact stream of writes the source
feeds to it, as a list of `(width, bits)` pairs: the source writes a kind tag
(`0.hash(state)`, an `i32` write) followed by one fixed-width write per
element.  Two vectors hash identically iff they produce the same stream. -/

namespace Vbits

inductive TreeVector where
  | F64 (v : List Nat)
  | F32 (v : List Nat)
  | I64 (v : List Int)
  | I32 (v : List Int)
  | I16 (v : List Int)
deriving DecidableEq, Repr

/-- An IEEE-754 binary64 bit pattern is a NaN iff its exponent field (bits
52-62) is all ones and its mantissa (bits 0-51) is nonzero. -/
def isNaN64 (b : Nat) : Bool := (b / 4503599627370496) % 2048 == 2047 && b % 4503599627370496 != 0

/-- The two binary64 zero bit patterns: `+0.0` is `0`, `-0.0` is `2^63`. -/
def isZero64 (b : Nat) : Bool := b == 0 || b == 9223372036854775808

/-- IEEE-754 equality of two binary64 bit patterns: NaN is unequal to
everything, `+0.0 == -0.0`, and any other two distinct bit patterns denote
distinct numbers (the value map is injective away from NaN and the zeros).
This models `f64::eq`, hence `Vec<f64>::eq` elementwise. -/
def feq64 (x y : Nat) : Bool :=
  !isNaN64 x && !isNaN64 y && (x == y || (isZero64 x && isZero64 y))

/-- Binary32 analogue of `isNaN64`: exponent bits 23-30 all ones, nonzero
mantissa in bits 0-22. -/
def isNaN32 (b : Nat) : Bool := (b / 8388608) % 256 == 255 && b % 8388608 != 0

/-- The two binary32 zero bit patterns. -/
def isZero32 (b : Nat) : Bool := b == 0 || b == 2147483648

/-- IEEE-754 equality of two binary32 bit patterns; models `f32::eq`. -/
def feq32 (x y : Nat) : Bool :=
  !isNaN32 x && !isNaN32 y && (x == y || (isZero32 x && isZero32 y))

/-- Elementwise `Vec<f64>` equality (equal length and IEEE-equal elements). -/
def feqList64 : List Nat → List Nat → Bool
  | [], [] => true
  | x :: xs, y :: ys => feq64 x y && feqList64 xs ys
  | _, _ => false

/-- Elementwise `Vec<f32>` equality. -/
def feqList32 : List Nat → List Nat → Bool
  | [], [] => true
  | x :: xs, y :: ys => feq32 x y && feqList32 xs ys
  | _, _ => false

/-- `impl PartialEq for TreeVector`: same kind and equal element sequence;
cross-kind comparison is always unequal (the `_ => false` arm). -/
def veq : TreeVector → TreeVector → Bool
  | .F64 v, .F64 w => feqList64 v w
  | .F32 v, .F32 w => feqList32 v w
  | .I64 v, .I64 w => v == w
  | .I32 v, .I32 w => v == w
  | .I16 v, .I16 w => v == w
  | _, _ => false

/-- Two's-complement 64-bit image of an integer, as written by `write_i64`. -/
def toU64 (i : Int) : Nat := (i % 18446744073709551616).toNat

/-- Two's-complement 32-bit image, as written by `write_i32`. -/
def toU32 (i : Int) : Nat := (i % 4294967296).toNat

/-- Two's-complement 16-bit image, as written by `write_i16`. -/
def toU16 (i : Int) : Nat := (i % 65536).toNat

/-- `impl Hash for TreeVector` as the stream of hasher writes: a kind tag
(an `i32` write of 0..4) followed by the bit pattern of each element
(`to_bits` for floats, the two's-complement image for integers). -/
def hashStream : TreeVector → List (Nat × Nat)
  | .F64 v => (32, 0) :: v.map fun b => (64, b)
  | .F32 v => (32, 1) :: v.map fun b => (32, b)
  | .I64 v => (32, 2) :: v.map fun i => (64, toU64 i)
  | .I32 v => (32, 3) :: v.map fun i => (32, toU32 i)
  | .I16 v => (32, 4) :: v.map fun i => (16, toU16 i)

/-- The kind tag, for stating cross-kind facts. -/
def vkindB : TreeVector → Nat
  | .F64 _ => 0
  | .F32 _ => 1
  | .I64 _ => 2
  | .I32 _ => 3
  | .I16 _ => 4

end Vbits

/-! ## Part 2: exact-real model of the distance kernel

Source: the distance functions of vector.rs (lines 154-390).  Float
arithmetic is idealised as exact real arithmetic; consequences of this model
choice: real division by zero is `0` where the source produces `NaN`
(Jaccard on empty sets, Pearson with zero deviation), and the Jaccard sets
of float elements are value sets where the source uses bit-pattern sets
(which additionally separate `+0.0` from `-0.0`).  None of the properties
proved below depend on these corners except where explicitly stated.
Mismatched element kinds return `Option.none`, modelling the source's
`f64::NAN` (or `f64::INFINITY` for Euclidean) sentinel. -/

namespace Vreal

noncomputable section

inductive TreeVector where
  | F64 (v : List ℝ)
  | F32 (v : List ℝ)
  | I64 (v : List ℤ)
  | I32 (v : List ℤ)
  | I16 (v : List ℤ)

/-- The distance selector `sql::index::Distance`; the Minkowski order is the
`to_float` image of its `Number` argument. -/
inductive Distance where
  | Chebyshev
  | Cosine
  | Euclidean
  | Hamming
  | Jaccard
  | Manhattan
  | Minkowski (order : ℝ)
  | Pearson

/-- `f64::MIN`, the most negative finite binary64 value:
`-(2 - 2^-52) * 2^1023`. -/
def f64MIN : ℝ := -((2 - 2 ^ (-52 : ℤ)) * 2 ^ (1023 : ℕ))

/-- `TreeVector::chebyshev`: fold of `f64::max` over `|a_i - b_i|`, seeded
with `f64::MIN` (vector.rs lines 154-162). -/
def chebyshev (a b : List ℝ) : ℝ := ((a.zip b).map fun p => |p.1 - p.2|).foldl max f64MIN

/-- `TreeVector::dot`. -/
def dot (a b : List ℝ) : ℝ := ((a.zip b).map fun p => p.1 * p.2).sum

/-- `TreeVector::magnitude`. -/
def magnitude (v : List ℝ) : ℝ := Real.sqrt ((v.map fun x => x * x).sum)

/-- `TreeVector::normalize`: zero magnitude yields the zero vector. -/
def normalize (v : List ℝ) : List ℝ :=
  if magnitude v = 0 then List.replicate v.length 0
  else v.map fun x => x / magnitude v

/-- `TreeVector::cosine`: `1 - dot(n(a), n(b))` with the dot clamped to
`[-1, 1]` by two successive comparisons, as in the source. -/
def cosine (a b : List ℝ) : ℝ :=
  let s := dot (normalize a) (normalize b)
  let s := if s < -1 then -1 else s
  let s := if 1 < s then 1 else s
  1 - s

/-- `TreeVector::euclidean`. -/
def euclidean (a b : List ℝ) : ℝ := Real.sqrt (((a.zip b).map fun p => (p.1 - p.2) ^ 2).sum)

open Classical in
/-- `TreeVector::hamming` on float elements: count of unequal pairs. -/
def hamming (a b : List ℝ) : ℝ := (((a.zip b).filter fun p => decide (p.1 ≠ p.2)).length : ℕ)

/-- `TreeVector::hamming` on integer elements. -/
def hammingI (a b : List ℤ) : ℝ := (((a.zip b).filter fun p => decide (p.1 ≠ p.2)).length : ℕ)

open Classical in
/-- `TreeVector::jaccard_f64`/`jaccard_f32`: `|A ∩ B| / |A ∪ B|` over element
sets (the source keys float sets by bit pattern; the value-set model
identifies `+0.0` with `-0.0`, which no property below depends on). -/
def jaccardSets (a b : List ℝ) : ℝ :=
  ((a.toFinset ∩ b.toFinset).card : ℕ) / (((a.toFinset ∪ b.toFinset).card : ℕ) : ℝ)

/-- `TreeVector::jaccard_integers`. -/
def jaccardSetsI (a b : List ℤ) : ℝ :=
  ((a.toFinset ∩ b.toFinset).card : ℕ) / (((a.toFinset ∪ b.toFinset).card : ℕ) : ℝ)

/-- `TreeVector::manhattan` on the float kinds (`(a - b).to_float().abs()`
summed; for `f64`/`f32` elements the subtraction happens in float
arithmetic, idealised as exact reals). -/
def manhattan (a b : List ℝ) : ℝ := ((a.zip b).map fun p => |p.1 - p.2|).sum

/-- Two's-complement wrapping of an integer into the signed `w`-bit range
`[-2^(w-1), 2^(w-1))`: the behaviour of Rust's release-mode `Sub` on
`i16`/`i32`/`i64`. -/
def wrapI (w : ℕ) (x : ℤ) : ℤ := (x + 2 ^ (w - 1)) % 2 ^ w - 2 ^ (w - 1)

/-- `TreeVector::manhattan` on the signed `w`-bit integer kinds: the source
subtracts IN THE ELEMENT TYPE (`(a - b).to_float().abs()` with `T : Sub`),
so the difference wraps on overflow before it is converted to float. -/
def manhattanI (w : ℕ) (a b : List ℤ) : ℝ :=
  ((a.zip b).map fun p => |((wrapI w (p.1 - p.2) : ℤ) : ℝ)|).sum

/-- `TreeVector::minkowski`: `(Σ |a_i - b_i|^order)^(1/order)`, real powers
via `Real.rpow`. -/
def minkowski (a b : List ℝ) (order : ℝ) : ℝ :=
  (((a.zip b).map fun p => |p.1 - p.2| ^ order).sum) ^ (1 / order)

/-- Modelled from the spec: the arithmetic mean used by Pearson
(`fnc/util/math/mean.rs` is outside the given sources; the spec fixes the
`N` convention). -/
def mean (l : List ℝ) : ℝ := l.sum / l.length

/-- Modelled from the spec: population standard deviation (`deviation(_, m,
false)`, `fnc/util/math/deviation.rs` is outside the given sources; the
spec states that sigma uses the same `N` convention as the covariance). -/
def deviation (l : List ℝ) (m : ℝ) : ℝ :=
  Real.sqrt ((l.map fun x => (x - m) ^ 2).sum / l.length)

/-- `TreeVector::pearson`: covariance over `N` divided by the product of the
population standard deviations. -/
def pearson (a b : List ℝ) : ℝ :=
  let m1 := mean a
  let m2 := mean b
  let covar := ((a.zip b).map fun p => (p.1 - m1) * (p.2 - m2)).sum / (a.length : ℕ)
  covar / (deviation a m1 * deviation b m2)

/-- The `to_float` image of a vector's elements, used by the generic helpers. -/
def floats : TreeVector → List ℝ
  | .F64 v => v
  | .F32 v => v
  | .I64 v => v.map fun i => (i : ℝ)
  | .I32 v => v.map fun i => (i : ℝ)
  | .I16 v => v.map fun i => (i : ℝ)

/-- The element kind of a vector, for stating same-kind hypotheses. -/
def vkind : TreeVector → Nat
  | .F64 _ => 0
  | .F32 _ => 1
  | .I64 _ => 2
  | .I32 _ => 3
  | .I16 _ => 4

/-- `chebyshev_distance`: per-kind dispatch, `none` for the mismatch arm
(the source returns `f64::NAN`). -/
def chebyshev_distance : TreeVector → TreeVector → Option ℝ
  | .F64 a, .F64 b => some (chebyshev a b)
  | .F32 a, .F32 b => some (chebyshev a b)
  | .I64 a, .I64 b => some (chebyshev (a.map fun i => (i : ℝ)) (b.map fun i => (i : ℝ)))
  | .I32 a, .I32 b => some (chebyshev (a.map fun i => (i : ℝ)) (b.map fun i => (i : ℝ)))
  | .I16 a, .I16 b => some (chebyshev (a.map fun i => (i : ℝ)) (b.map fun i => (i : ℝ)))
  | _, _ => none

/-- `cosine_distance`. -/
def cosine_distance : TreeVector → TreeVector → Option ℝ
  | .F64 a, .F64 b => some (cosine a b)
  | .F32 a, .F32 b => some (cosine a b)
  | .I64 a, .I64 b => some (cosine (a.map fun i => (i : ℝ)) (b.map fun i => (i : ℝ)))
  | .I32 a, .I32 b => some (cosine (a.map fun i => (i : ℝ)) (b.map fun i => (i : ℝ)))
  | .I16 a, .I16 b => some (cosine (a.map fun i => (i : ℝ)) (b.map fun i => (i : ℝ)))
  | _, _ => none

/-- `euclidean_distance` (`none` models the `f64::INFINITY` mismatch arm). -/
def euclidean_distance : TreeVector → TreeVector → Option ℝ
  | .F64 a, .F64 b => some (euclidean a b)
  | .F32 a, .F32 b => some (euclidean a b)
  | .I64 a, .I64 b => some (euclidean (a.map fun i => (i : ℝ)) (b.map fun i => (i : ℝ)))
  | .I32 a, .I32 b => some (euclidean (a.map fun i => (i : ℝ)) (b.map fun i => (i : ℝ)))
  | .I16 a, .I16 b => some (euclidean (a.map fun i => (i : ℝ)) (b.map fun i => (i : ℝ)))
  | _, _ => none

/-- `hamming_distance`: integer kinds compare elements as integers. -/
def hamming_distance : TreeVector → TreeVector → Option ℝ
  | .F64 a, .F64 b => some (hamming a b)
  | .F32 a, .F32 b => some (hamming a b)
  | .I64 a, .I64 b => some (hammingI a b)
  | .I32 a, .I32 b => some (hammingI a b)
  | .I16 a, .I16 b => some (hammingI a b)
  | _, _ => none

/-- `jaccard_similarity`. -/
def jaccard_similarity : TreeVector → TreeVector → Option ℝ
  | .F64 a, .F64 b => some (jaccardSets a b)
  | .F32 a, .F32 b => some (jaccardSets a b)
  | .I64 a, .I64 b => some (jaccardSetsI a b)
  | .I32 a, .I32 b => some (jaccardSetsI a b)
  | .I16 a, .I16 b => some (jaccardSetsI a b)
  | _, _ => none

/-- `manhattan_distance`: unlike every other kernel, `manhattan` subtracts
in the element type before `to_float`, so the integer arms wrap. -/
def manhattan_distance : TreeVector → TreeVector → Option ℝ
  | .F64 a, .F64 b => some (manhattan a b)
  | .F32 a, .F32 b => some (manhattan a b)
  | .I64 a, .I64 b => some (manhattanI 64 a b)
  | .I32 a, .I32 b => some (manhattanI 32 a b)
  | .I16 a, .I16 b => some (manhattanI 16 a b)
  | _, _ => none

/-- `minkowski_distance`. -/
def minkowski_distance (a b : TreeVector) (order : ℝ) : Option ℝ :=
  match a, b with
  | .F64 a, .F64 b => some (minkowski a b order)
  | .F32 a, .F32 b => some (minkowski a b order)
  | .I64 a, .I64 b => some (minkowski (a.map fun i => (i : ℝ)) (b.map fun i => (i : ℝ)) order)
  | .I32 a, .I32 b => some (minkowski (a.map fun i => (i : ℝ)) (b.map fun i => (i : ℝ)) order)
  | .I16 a, .I16 b => some (minkowski (a.map fun i => (i : ℝ)) (b.map fun i => (i : ℝ)) order)
  | _, _ => none

/-- `pearson_similarity`. -/
def pearson_similarity : TreeVector → TreeVector → Option ℝ
  | .F64 a, .F64 b => some (pearson a b)
  | .F32 a, .F32 b => some (pearson a b)
  | .I64 a, .I64 b => some (pearson (a.map fun i => (i : ℝ)) (b.map fun i => (i : ℝ)))
  | .I32 a, .I32 b => some (pearson (a.map fun i => (i : ℝ)) (b.map fun i => (i : ℝ)))
  | .I16 a, .I16 b => some (pearson (a.map fun i => (i : ℝ)) (b.map fun i => (i : ℝ)))
  | _, _ => none

/-- `Distance::dist` (vector.rs lines 377-390). -/
def Distance.dist : Distance → TreeVector → TreeVector → Option ℝ
  | .Chebyshev, a, b => chebyshev_distance a b
  | .Cosine, a, b => cosine_distance a b
  | .Euclidean, a, b => euclidean_distance a b
  | .Hamming, a, b => hamming_distance a b
  | .Jaccard, a, b => jaccard_similarity a b
  | .Manhattan, a, b => manhattan_distance a b
  | .Minkowski order, a, b => minkowski_distance a b order
  | .Pearson, a, b => pearson_similarity a b

end

end Vreal

/-! ## Part 3: functional model of the HNSW engine and index facade

Source: hnsw.rs.  The model is generic over the vector type `V` and the
distance value type `D`.  The source computes `f64` distances and orders
`PriorityNode(f64, u64)` pairs totally; §4.C of the documentation asserts that
NaN is excluded for the metrics HNSW is used with, so `D` is taken to be an
arbitrary linear order.  `PriorityNode` itself lives in `idx/trees/knn.rs`,
which is outside the given sources, so its order is modelled from the spec. -/

namespace Engine

/-- Modelled from the spec: `PriorityNode` (§4.C of knn.rs's documentation),
a pair (distance, element id) ordered lexicographically, distance first. -/
abbrev PN (D : Type) := D × Nat

variable {V D : Type}

/-- Lexicographic strict order on priority nodes, distance first. -/
def pnLt [LinearOrder D] (a b : PN D) : Prop := a.1 < b.1 ∨ (a.1 = b.1 ∧ a.2 < b.2)

instance [LinearOrder D] : DecidableRel (pnLt (D := D)) := fun a b => by
  unfold pnLt; infer_instance

/-- Ordered insertion into a sorted duplicate-free list: the model of
`BTreeSet::insert`. -/
def bsInsert [LinearOrder D] (x : PN D) : List (PN D) → List (PN D)
  | [] => [x]
  | y :: ys => if pnLt x y then x :: y :: ys else if x = y then y :: ys else y :: bsInsert x ys

/-- A layer's adjacency map `HashMap<ElementId, Vec<ElementId>>`, as an
association list with unique keys, enumerated in insertion order. -/
abbrev Layer := List (Nat × List Nat)

/-- The element ids present in a layer. -/
def layerKeys (L : Layer) : List Nat := L.map fun p => p.1

/-- `HashMap::get`. -/
def layerLookup (L : Layer) (k : Nat) : Option (List Nat) :=
  (L.find? fun p => p.1 == k).map fun p => p.2

/-- `HashMap::insert`: replace the value of an existing key, otherwise add
the binding. -/
def layerInsert (L : Layer) (k : Nat) (v : List Nat) : Layer :=
  if k ∈ layerKeys L then L.map fun p => if p.1 == k then (k, v) else p
  else L ++ [(k, v)]

/-- The `Hnsw` state: per-level adjacency, optional entry point, and the
dense element arena.  `ml` and `rng` only feed `get_random_level`, whose
draw is modelled as an input to `insert`. -/
structure Hnsw (V : Type) where
  layers : List Layer
  enter_point : Option Nat
  elements : List V
deriving DecidableEq, Repr

/-- Layer access `self.layers[lc]`; in-range under the engine invariants. -/
def getLayer (layers : List Layer) (l : Nat) : Layer := layers.getD l []

/-- Layer replacement. -/
def setLayer (layers : List Layer) (l : Nat) (L : Layer) : List Layer := layers.set l L

/-- One neighbour-expansion step of `search_layer` (hnsw.rs lines 231-243):
given the frozen `f_dist` and the popped candidate id `cId`, process one
layer entry `(e, e_neighbors)`, selecting it iff its neighbour list contains
`cId` (the in-edge enumeration of the source). -/
def slStep [LinearOrder D] [Inhabited V] (dist : V → V → D) (elements : List V) (q : V)
    (ef : Nat) (f_dist : D) (cId : Nat) (s : List (PN D) × List (PN D) × List Nat)
    (e : Nat × List Nat) : List (PN D) × List (PN D) × List Nat :=
  let cs := s.1
  let w := s.2.1
  let vis := s.2.2
  if cId ∈ e.2 then
    if e.1 ∈ vis then (cs, w, vis)
    else
      let vis := e.1 :: vis
      let eDist := dist (elements.getD e.1 default) q
      if eDist < f_dist ∨ w.length < ef then
        let cs := bsInsert (eDist, e.1) cs
        let w := bsInsert (eDist, e.1) w
        let w := if ef < w.length then w.dropLast else w
        (cs, w, vis)
      else (cs, w, vis)
  else (cs, w, vis)

/-- The `while let Some(c) = candidates.pop_first()` loop of `search_layer`,
with explicit fuel (the fuel passed by `search_layer` is proved sufficient;
see the stability theorems). -/
def slLoop [LinearOrder D] [Inhabited V] (dist : V → V → D) (elements : List V)
    (entries : Layer) (q : V) (ef : Nat) :
    Nat → List (PN D) → List (PN D) → List Nat → List (PN D)
  | _, [], w, _ => w
  | 0, _ :: _, w, _ => w
  | fuel + 1, c :: rest, w, vis =>
    let f_dist := match rest.getLast? with
      | some f => f.1
      | none => c.1
    if f_dist < c.1 then w
    else
      let s := entries.foldl (slStep dist elements q ef f_dist c.2) (rest, w, vis)
      slLoop dist elements entries q ef fuel s.1 s.2.1 s.2.2

/-- Variant of `slLoop` without the early-stop branch, used to state that the
break is dead code. -/
def slLoopNB [LinearOrder D] [Inhabited V] (dist : V → V → D) (elements : List V)
    (entries : Layer) (q : V) (ef : Nat) :
    Nat → List (PN D) → List (PN D) → List Nat → List (PN D)
  | _, [], w, _ => w
  | 0, _ :: _, w, _ => w
  | fuel + 1, c :: rest, w, vis =>
    let f_dist := match rest.getLast? with
      | some f => f.1
      | none => c.1
    let s := entries.foldl (slStep dist elements q ef f_dist c.2) (rest, w, vis)
    slLoopNB dist elements entries q ef fuel s.1 s.2.1 s.2.2

/-- `Hnsw::search_layer` (hnsw.rs lines 214-247): beam search within one
layer, starting from the singleton `ep` beam. -/
def search_layer [LinearOrder D] [Inhabited V] (dist : V → V → D) (elements : List V)
    (entries : Layer) (q : V) (ep ef : Nat) : List (PN D) :=
  let epDist := dist (elements.getD ep default) q
  slLoop dist elements entries q ef (2 * entries.length + 1) [(epDist, ep)] [(epDist, ep)] [ep]

/-- `search_layer` with the early-stop branch removed, used to state that
the break is dead code. -/
def search_layerNB [LinearOrder D] [Inhabited V] (dist : V → V → D) (elements : List V)
    (entries : Layer) (q : V) (ep ef : Nat) : List (PN D) :=
  let epDist := dist (elements.getD ep default) q
  slLoopNB dist elements entries q ef (2 * entries.length + 1) [(epDist, ep)] [(epDist, ep)]
    [ep]

/-- `search_layer` run with additional fuel, used to state that the fuel
passed by `search_layer` already reaches the loop's exit. -/
def search_layerFuel [LinearOrder D] [Inhabited V] (extra : Nat) (dist : V → V → D)
    (elements : List V) (entries : Layer) (q : V) (ep ef : Nat) : List (PN D) :=
  let epDist := dist (elements.getD ep default) q
  slLoop dist elements entries q ef (2 * entries.length + 1 + extra) [(epDist, ep)] [(epDist, ep)] [ep]

/-- One admission step of the claim's description of `search_layer`, with the
beam truncated to its `ef` smallest after each insertion. -/
def slStepSpec [LinearOrder D] [Inhabited V] (dist : V → V → D) (elements : List V) (q : V)
    (ef : Nat) (f_dist : D) (cId : Nat) (s : List (PN D) × List (PN D) × List Nat)
    (e : Nat × List Nat) : List (PN D) × List (PN D) × List Nat :=
  let cs := s.1
  let w := s.2.1
  let vis := s.2.2
  if cId ∈ e.2 then
    if e.1 ∈ vis then (cs, w, vis)
    else
      let vis := e.1 :: vis
      let eDist := dist (elements.getD e.1 default) q
      if eDist < f_dist ∨ w.length < ef then
        (bsInsert (eDist, e.1) cs, (bsInsert (eDist, e.1) w).take ef, vis)
      else (cs, w, vis)
  else (cs, w, vis)

/-- The loop of the claim's description of `search_layer`. -/
def slLoopSpec [LinearOrder D] [Inhabited V] (dist : V → V → D) (elements : List V)
    (entries : Layer) (q : V) (ef : Nat) :
    Nat → List (PN D) → List (PN D) → List Nat → List (PN D)
  | _, [], w, _ => w
  | 0, _ :: _, w, _ => w
  | fuel + 1, c :: rest, w, vis =>
    let f_dist := match rest.getLast? with
      | some f => f.1
      | none => c.1
    if f_dist < c.1 then w
    else
      let s := entries.foldl (slStepSpec dist elements q ef f_dist c.2) (rest, w, vis)
      slLoopSpec dist elements entries q ef fuel s.1 s.2.1 s.2.2

/-- The beam search exactly as the claim describes it: candidates, beam and
visited start as singletons on `ep`; each iteration pops the smallest
candidate `c`; `f_dist` is the largest distance remaining in candidates (or
`c`'s when none remain) and the loop stops if `c`'s distance exceeds it;
expansion enumerates all layer entries and selects those whose neighbour
list contains `c`'s id; an unvisited entry is admitted when its distance is
below `f_dist` or the beam is not yet full, and the beam is truncated to its
`ef` smallest. -/
def spec_search_layer [LinearOrder D] [Inhabited V] (dist : V → V → D) (elements : List V)
    (entries : Layer) (q : V) (ep ef : Nat) : List (PN D) :=
  let epDist := dist (elements.getD ep default) q
  slLoopSpec dist elements entries q ef (2 * entries.length + 1) [(epDist, ep)] [(epDist, ep)] [ep]

/-- The accumulation loop of `select_neighbors_simple` (hnsw.rs lines
267-279): push ids in beam order, stopping once `m_max` have been taken. -/
def select_neighbors_simple_go (mmax : Nat) : List (PN D) → List Nat → List Nat
  | [], acc => acc
  | p :: rest, acc =>
    if (acc ++ [p.2]).length = mmax then acc ++ [p.2]
    else select_neighbors_simple_go mmax rest (acc ++ [p.2])

/-- `Hnsw::select_neighbors_simple`. -/
def select_neighbors_simple (w : List (PN D)) (mmax : Nat) : List Nat :=
  select_neighbors_simple_go mmax w []

/-- `Hnsw::select_and_shrink_neighbors_simple` (hnsw.rs lines 249-265):
re-rank the anchor's current neighbours plus the new id by distance to the
anchor and keep the `m_max` closest. -/
def select_and_shrink_neighbors_simple [LinearOrder D] [Inhabited V] (dist : V → V → D)
    (elements : List V) (eId newFId : Nat) (newF : V) (conn : List Nat) (mmax : Nat) :
    List Nat :=
  let e := elements.getD eId default
  let w := conn.foldl (fun acc fId => bsInsert (dist (elements.getD fId default) e, fId) acc)
    (bsInsert (dist e newF, newFId) [])
  select_neighbors_simple w mmax

/-- The bidirectional-connection loop of `insert_element` (hnsw.rs lines
159-169): for each selected neighbour, either shrink its full list or append
the new id; a neighbour missing from the layer map is the source's
`unreachable!("Element")`, modelled as `none`. -/
def connect_neighbors [LinearOrder D] [Inhabited V] (dist : V → V → D) (elements : List V)
    (mmax id : Nat) (q : V) : Layer → List Nat → Option Layer
  | layer, [] => some layer
  | layer, e :: rest =>
    match layerLookup layer e with
    | none => none
    | some conn =>
      let conn := if mmax ≤ conn.length then
          select_and_shrink_neighbors_simple dist elements e id q conn mmax
        else conn ++ [id]
      connect_neighbors dist elements mmax id q (layerInsert layer e conn) rest

/-- The descent of `insert_element` through layers `(level+1)..=top` (hnsw.rs
lines 136-141), threading the best candidate; an empty beam silently keeps
the current entry point, as in the source's `if let`. -/
def descend [LinearOrder D] [Inhabited V] (dist : V → V → D) (elements : List V)
    (layers : List Layer) (q : V) : List Nat → Nat → Nat
  | [], ep => ep
  | lc :: rest, ep =>
    let w := search_layer dist elements (getLayer layers lc) q ep 1
    let ep := match w.head? with
      | some n => n.2
      | none => ep
    descend dist elements layers q rest ep

/-- The main per-layer loop of `insert_element` (hnsw.rs lines 144-176) over
the descending layer list: beam-search with width `EFC`, select and insert
the new id's neighbour list, connect back, and thread the beam's best as the
next entry point; the source's `unreachable!("W is empty")` is `none`. -/
def insert_loop [LinearOrder D] [Inhabited V] (dist : V → V → D) (elements : List V)
    (M M0 EFC id : Nat) (q : V) : List Nat → List Layer → Nat → Option (List Layer × Nat)
  | [], layers, ep => some (layers, ep)
  | lc :: rest, layers, ep =>
    let mmax := if lc = 0 then M0 else M
    let w := search_layer dist elements (getLayer layers lc) q ep EFC
    let neighbors := select_neighbors_simple w mmax
    match connect_neighbors dist elements mmax id q
        (layerInsert (getLayer layers lc) id neighbors) neighbors with
    | none => none
    | some layer =>
      match w.head? with
      | none => none
      | some n => insert_loop dist elements M M0 EFC id q rest (setLayer layers lc layer) n.2

/-- The upper-layer extension of `insert_element` (hnsw.rs lines 178-183):
insert `id` with an empty list into layers `(top+1)..=level`; a pre-existing
entry is the source's `unreachable!("Already there")`, modelled as `none`. -/
def extend_upper (id : Nat) : List Nat → List Layer → Option (List Layer)
  | [], layers => some layers
  | lc :: rest, layers =>
    if id ∈ layerKeys (getLayer layers lc) then none
    else extend_upper id rest (setLayer layers lc (layerInsert (getLayer layers lc) id []))

/-- `Hnsw::insert_element` (hnsw.rs lines 126-190), returning the updated
layers; `top` is the top layer level captured before the layer extension. -/
def insert_element [LinearOrder D] [Inhabited V] (dist : V → V → D) (elements : List V)
    (M M0 EFC : Nat) (q : V) (ep id level top : Nat) (layers : List Layer) :
    Option (List Layer) :=
  let ep := descend dist elements layers q ((List.range' (level + 1) (top - level)).reverse) ep
  match insert_loop dist elements M M0 EFC id q ((List.range (min top level + 1)).reverse)
      layers ep with
  | none => none
  | some (layers, _) => extend_upper id (List.range' (top + 1) (level - top)) layers

/-- `Hnsw::insert_first_element` (hnsw.rs lines 117-124). -/
def insert_first_element (id level : Nat) (layers : List Layer) : List Layer :=
  (List.range (level + 1)).foldl
    (fun ls lc => setLayer ls lc (layerInsert (getLayer ls lc) id [])) layers

/-- `Hnsw::insert` (hnsw.rs lines 92-110) with the randomly drawn `level`
passed explicitly: assign the next dense id, extend the layer vector, insert
(first element or general case), raise the entry point when a new top layer
appeared, and append the vector to the arena afterwards. -/
def Hnsw.insert [LinearOrder D] [Inhabited V] (dist : V → V → D) (M M0 EFC : Nat)
    (st : Hnsw V) (q : V) (level : Nat) : Option (Hnsw V) :=
  let id := st.elements.length
  let oldLen := st.layers.length
  let layers := st.layers ++ List.replicate (level + 1 - oldLen) []
  match st.enter_point with
  | none => some ⟨insert_first_element id level layers, some id, st.elements ++ [q]⟩
  | some ep =>
    match insert_element dist st.elements M M0 EFC q ep id level (oldLen - 1) layers with
    | none => none
    | some layers =>
      some ⟨layers, if oldLen - 1 < level then some id else st.enter_point,
        st.elements ++ [q]⟩

/-- The greedy descent of `knn_search` through layers `(1..len).rev()`
(hnsw.rs lines 288-295); an empty beam is the source's `unreachable!()`,
modelled as `none`. -/
def knn_descend [LinearOrder D] [Inhabited V] (dist : V → V → D) (elements : List V)
    (layers : List Layer) (q : V) : List Nat → Nat → Option Nat
  | [], ep => some ep
  | lc :: rest, ep =>
    match (search_layer dist elements (getLayer layers lc) q ep 1).head? with
    | none => none
    | some n => knn_descend dist elements layers q rest n.2

/-- `Hnsw::knn_search` (hnsw.rs lines 285-302): empty index yields `[]`,
otherwise descend to layer 0, beam-search with width `ef` and keep the first
`k` results. -/
def Hnsw.knn_search [LinearOrder D] [Inhabited V] (dist : V → V → D) (st : Hnsw V)
    (q : V) (k ef : Nat) : Option (List (PN D)) :=
  match st.enter_point with
  | none => some []
  | some ep =>
    match knn_descend dist st.elements st.layers q
        ((List.range' 1 (st.layers.length - 1)).reverse) ep with
    | none => none
    | some ep => some ((search_layer dist st.elements (getLayer st.layers 0) q ep ef).take k)

/-- Modelled from the spec: `Docs` (§3 of the documentation; `knn.rs` is
outside the given sources), a compact doc-id set with a `One` form promoted
to `Many` on insertion of a distinct second element, duplicate inserts being
idempotent. -/
inductive Docs where
  | One (d : Nat)
  | Many (l : List Nat)
deriving DecidableEq, Repr

/-- Modelled from the spec: `Docs::insert` as a functional update (the
source's optional-new-representation write-back dance collapses to the
resulting value). -/
def Docs.insertDoc : Docs → Nat → Docs
  | .One a, d => if d = a then .One a else .Many [a, d]
  | .Many l, d => if d ∈ l then .Many l else .Many (l ++ [d])

/-- The doc ids of a `Docs`, in registration order. -/
def Docs.toList : Docs → List Nat
  | .One a => [a]
  | .Many l => l

/-- `HashMap<SharedVector, Docs>` lookup of the facade's vec-to-docs map. -/
def mapLookup [DecidableEq V] (m : List (V × Docs)) (v : V) : Option Docs :=
  (m.find? fun p => decide (p.1 = v)).map fun p => p.2

/-- `HashMap<SharedVector, Docs>` insertion. -/
def mapInsert [DecidableEq V] (m : List (V × Docs)) (v : V) (docs : Docs) : List (V × Docs) :=
  if (m.find? fun p => decide (p.1 = v)).isSome then
    m.map fun p => if p.1 = v then (v, docs) else p
  else m ++ [(v, docs)]

/-- `HnswIndex`: the engine plus the vec-to-docs map. -/
structure HnswIndex (V : Type) where
  h : Hnsw V
  d : List (V × Docs)
deriving DecidableEq, Repr

/-- `HnswIndex::insert` (hnsw.rs lines 26-39): insert into the engine, then
record the doc id (vacant slot gets `One`, occupied slot is `Docs::insert`ed). -/
def HnswIndex.insertIdx [LinearOrder D] [Inhabited V] [DecidableEq V] (dist : V → V → D)
    (M M0 EFC : Nat) (idx : HnswIndex V) (q : V) (doc level : Nat) : Option (HnswIndex V) :=
  match Hnsw.insert dist M M0 EFC idx.h q level with
  | none => none
  | some h =>
    let docs := match mapLookup idx.d q with
      | some ds => ds.insertDoc doc
      | none => Docs.One doc
    some ⟨h, mapInsert idx.d q docs⟩

/-- Modelled from the spec: the `KnnResultBuilder` fold of
`HnswIndex::search` (§4.F, §6; `knn.rs` is outside the given sources).  The
engine's neighbours arrive in ascending `(distance, id)` order; each one that
can still contribute (`check_add`) resolves to its vector's doc set, whose
ids are appended with that distance unless already present; the final result
is the first `n` registered `(doc, distance)` pairs, which by construction
are ascending by distance with ties in registration order. -/
def knnResultBuild [DecidableEq V] [Inhabited V] (n : Nat) (elements : List V)
    (dmap : List (V × Docs)) (neighbors : List (PN D)) : List (Nat × D) :=
  (neighbors.foldl (fun acc pn =>
    if acc.length < n then
      match mapLookup dmap (elements.getD pn.2 default) with
      | some docs => docs.toList.foldl
          (fun acc dd => if acc.any fun p => decide (p.1 = dd) then acc else acc ++ [(dd, pn.1)])
          acc
      | none => acc
    else acc) []).take n

/-- `HnswIndex::search` (hnsw.rs lines 41-57): engine search, then fold the
neighbours through the result builder. -/
def HnswIndex.searchIdx [LinearOrder D] [Inhabited V] [DecidableEq V] (dist : V → V → D)
    (idx : HnswIndex V) (q : V) (k ef : Nat) : Option (List (Nat × D)) :=
  (Hnsw.knn_search dist idx.h q k ef).map fun ns => knnResultBuild k idx.h.elements idx.d ns

/-- The empty engine state (`Hnsw::new`). -/
def Hnsw.new (V : Type) : Hnsw V := ⟨[], none, []⟩

/-- Build an engine from a history of `(vector, drawn level)` inserts. -/
def buildIndex [LinearOrder D] [Inhabited V] (dist : V → V → D) (M M0 EFC : Nat)
    (hist : List (V × Nat)) : Option (Hnsw V) :=
  hist.foldl (fun acc p => acc.bind fun st => Hnsw.insert dist M M0 EFC st p.1 p.2)
    (some (Hnsw.new V))

/-- The empty facade state (`HnswIndex::new`). -/
def HnswIndex.new (V : Type) : HnswIndex V := ⟨Hnsw.new V, []⟩

/-- Build a facade from a history of `(vector, doc id, drawn level)` inserts. -/
def buildIndexF [LinearOrder D] [Inhabited V] [DecidableEq V] (dist : V → V → D)
    (M M0 EFC : Nat) (hist : List (V × Nat × Nat)) : Option (HnswIndex V) :=
  hist.foldl (fun acc p => acc.bind fun idx => idx.insertIdx dist M M0 EFC p.1 p.2.1 p.2.2)
    (some (HnswIndex.new V))

/-- The concrete distance used for executable instances: vectors are
integers, distance is `|a - b|` (the Manhattan distance of one-dimensional
`I64` vectors, computed exactly). -/
def distZ (a b : ℤ) : ℤ := |a - b|

/-- A concrete insert history (vector, drawn level) used to instantiate the
invariant theorems: three one-dimensional integer vectors, the second at
level 1. -/
def histW : List (ℤ × Nat) := [(0, 0), (5, 1), (9, 0)]

/-- The engine state produced by `histW` with `M = 2`, `M0 = 4`, `EFC = 10`. -/
def stW : Hnsw ℤ :=
  ⟨[[(0, [1, 2]), (1, [0, 2]), (2, [1, 0])], [(1, [])]], some 1, [0, 5, 9]⟩

/-- A concrete facade history under `M = M0 = 1`, `EFC = 500` on which the
base layer's reverse-edge graph becomes disconnected: after the third
insert, node 0 has no in-edges at layer 0, so a search starting there finds
only itself. -/
def histC2 : List (ℤ × Nat × Nat) := [(0, 100, 0), (10, 101, 0), (11, 102, 0)]

/-- A concrete facade history inserting the same vector twice under two
distinct doc ids, used for the duplicate-vector claim. -/
def histC8 : List (ℤ × Nat × Nat) := [(3, 1, 0), (3, 2, 0)]

/-- The loop invariant of `search_layer`: the beam is nonempty, beam and
candidate ids are visited, ids in the beam are distinct, both sets are
sorted, the beam size is bounded, and every visited id is in `scope` (the
entry point together with the layer's keys). -/
def SLInv [LinearOrder D] (ef : Nat) (scope : List Nat) (cs w : List (PN D))
    (vis : List Nat) : Prop :=
  w ≠ [] ∧ (w.map fun p => p.2).Nodup ∧ (∀ p ∈ w, p.2 ∈ vis) ∧ (∀ p ∈ cs, p.2 ∈ vis) ∧
    w.Pairwise pnLt ∧ cs.Pairwise pnLt ∧ w.length ≤ max 1 ef ∧ (∀ v ∈ vis, v ∈ scope)

/-- The termination measure of the `search_layer` loop: twice the number of
unvisited layer keys plus the number of pending candidates. -/
def slMeasure (entries : Layer) (cs : List (PN D)) (vis : List Nat) : Nat :=
  2 * ((layerKeys entries).filter fun k => decide (k ∉ vis)).length + cs.length

/-- The number of layers an insert history requires: one more than the
highest drawn level. -/
def histTop {V : Type} (hist : List (V × Nat)) : Nat :=
  hist.foldl (fun n p => max n (p.2 + 1)) 0

/-- The state invariant of the engine relative to its insert history:
elements are the inserted vectors in order, the layer count matches the
highest level, layer keys are duplicate-free, element `i` is present in
layer `l` exactly when `l` is at most `i`'s drawn level, and the entry point
is an element whose level is the current top. -/
def MasterInv {V : Type} (hist : List (V × Nat)) (st : Hnsw V) : Prop :=
  st.elements = hist.map (fun p => p.1) ∧
  st.layers.length = histTop hist ∧
  (∀ l, (layerKeys (getLayer st.layers l)).Nodup) ∧
  (∀ l i, i ∈ layerKeys (getLayer st.layers l) ↔ ∃ p, hist.get? i = some p ∧ l ≤ p.2) ∧
  (match st.enter_point with
   | none => hist = []
   | some e => ∃ p, hist.get? e = some p ∧ p.2 + 1 = histTop hist)

/-- The degree invariant: every neighbour list in layer 0 has length at most
`M0`, and in layers at least 1 at most `M`. -/
def degOK (M M0 : Nat) (layers : List Layer) : Prop :=
  ∀ l, ∀ p ∈ getLayer layers l, p.2.length ≤ if l = 0 then M0 else M

end Engine

/-! ## Part 4: lemmas about the distance kernel -/

namespace Vreal

theorem manhattan_distance_wraps :
    manhattan_distance (TreeVector.I16 [20000]) (TreeVector.I16 [-20000]) = some 25536 ∧
      manhattan_distance (TreeVector.I16 [-20000]) (TreeVector.I16 [20000]) = some 25536 := by
  constructor <;>
    · simp only [manhattan_distance, manhattanI, wrapI, List.zip_cons_cons, List.zip_nil_right,
        List.map_cons, List.map_nil, List.sum_cons, List.sum_nil]
      norm_num

theorem f64MIN_neg : f64MIN < 0 := by
  unfold f64MIN
  have h1 : (2 : ℝ) ^ (-52 : ℤ) ≤ 1 := by
    apply zpow_le_one_of_nonpos₀ (by norm_num) (by norm_num)
  have h2 : (0 : ℝ) < 2 - 2 ^ (-52 : ℤ) := by linarith
  have h3 : (0 : ℝ) < 2 ^ (1023 : ℕ) := by positivity
  nlinarith

end Vreal

/-! ## Claims C1, C7, C9 -/

/-- C1: evaluation of the Vector hash/equality contract at the failing
input.  The vectors `F64 [+0.0]` and `F64 [-0.0]` (bit patterns `0` and
`2^63`) compare equal under `impl PartialEq` but produce different hash
streams, because the hash writes the raw IEEE-754 bit pattern: `a == b`
does NOT imply `hash(a) == hash(b)`, and `+0.0` and `-0.0` hash
DIFFERENTLY — contradicting both the claimed contract and the Rust `Hash`
trait requirement the implementation is bound by.  The remaining parts of
the claim hold: NaNs with different payloads (here the bit patterns
`0x7FF0000000000001` and `0x7FF0000000000002`) hash differently, and
cross-kind vectors are unequal. -/
theorem c1_eval :
    Vbits.veq (Vbits.TreeVector.F64 [0]) (Vbits.TreeVector.F64 [9223372036854775808]) = true ∧
    Vbits.hashStream (Vbits.TreeVector.F64 [0])
      ≠ Vbits.hashStream (Vbits.TreeVector.F64 [9223372036854775808]) ∧
    Vbits.hashStream (Vbits.TreeVector.F64 [9218868437227405313])
      ≠ Vbits.hashStream (Vbits.TreeVector.F64 [9218868437227405314]) ∧
    Vbits.veq (Vbits.TreeVector.F64 [0]) (Vbits.TreeVector.I64 [0]) = false := by
  refine ⟨by decide, by decide, by decide, by decide⟩

/-- C9: Chebyshev distance on two same-kind vectors is exactly the fold of
`max` over `|a_i - b_i|` seeded with `f64::MIN`; on zero-length input it
returns `f64::MIN`, which is not 0. -/
theorem c9_chebyshev_fold :
    (∀ a b, Vreal.vkind a = Vreal.vkind b →
      Vreal.Distance.Chebyshev.dist a b
        = some ((((Vreal.floats a).zip (Vreal.floats b)).map
            fun p => |p.1 - p.2|).foldl max Vreal.f64MIN)) ∧
    Vreal.Distance.Chebyshev.dist (Vreal.TreeVector.F64 []) (Vreal.TreeVector.F64 [])
      = some Vreal.f64MIN ∧
    Vreal.f64MIN ≠ 0 := by
  refine ⟨?_, ?_, ne_of_lt Vreal.f64MIN_neg⟩
  · intro a b h
    cases a <;> cases b <;> first | rfl | simp [Vreal.vkind] at h
  · simp [Vreal.Distance.dist, Vreal.chebyshev_distance, Vreal.chebyshev]

/-- C9 witness: the fold characterisation applied at a concrete same-kind
pair. -/
theorem c9_witness :
    Vreal.vkind (Vreal.TreeVector.F64 [3]) = Vreal.vkind (Vreal.TreeVector.F64 [5]) ∧
    Vreal.Distance.Chebyshev.dist (Vreal.TreeVector.F64 [3]) (Vreal.TreeVector.F64 [5])
      = some ((((Vreal.floats (Vreal.TreeVector.F64 [3])).zip
          (Vreal.floats (Vreal.TreeVector.F64 [5]))).map
            fun p => |p.1 - p.2|).foldl max Vreal.f64MIN) :=
  ⟨rfl, c9_chebyshev_fold.1 _ _ rfl⟩

/-! ## Part 5: lemmas about the engine's ordered sets and layers -/

namespace Engine

variable {V D : Type}

theorem pnLt_irrefl [LinearOrder D] (a : PN D) : ¬ pnLt a a := by
  simp [pnLt]

theorem pnLt_trans [LinearOrder D] {a b c : PN D} (hab : pnLt a b) (hbc : pnLt b c) :
    pnLt a c := by
  rcases hab with h | ⟨h1, h2⟩ <;> rcases hbc with g | ⟨g1, g2⟩
  · exact Or.inl (lt_trans h g)
  · exact Or.inl (g1 ▸ h)
  · exact Or.inl (h1 ▸ g)
  · exact Or.inr ⟨h1.trans g1, h2.trans g2⟩

theorem pnLt_total [LinearOrder D] (a b : PN D) : pnLt a b ∨ a = b ∨ pnLt b a := by
  rcases lt_trichotomy a.1 b.1 with h | h | h
  · exact Or.inl (Or.inl h)
  · rcases lt_trichotomy a.2 b.2 with g | g | g
    · exact Or.inl (Or.inr ⟨h, g⟩)
    · exact Or.inr (Or.inl (Prod.ext h g))
    · exact Or.inr (Or.inr (Or.inr ⟨h.symm, g⟩))
  · exact Or.inr (Or.inr (Or.inl h))

theorem pnLt_asymm [LinearOrder D] {a b : PN D} (h : pnLt a b) : ¬ pnLt b a :=
  fun g => pnLt_irrefl a (pnLt_trans h g)

theorem pnLt_fst_le [LinearOrder D] {a b : PN D} (h : pnLt a b) : a.1 ≤ b.1 := by
  rcases h with h | ⟨h, _⟩
  · exact le_of_lt h
  · exact le_of_eq h

theorem mem_bsInsert [LinearOrder D] {x y : PN D} {l : List (PN D)} :
    y ∈ bsInsert x l ↔ y = x ∨ y ∈ l := by
  induction l with
  | nil => simp [bsInsert]
  | cons z zs ih =>
    unfold bsInsert
    split
    · constructor
      · intro h
        rcases List.mem_cons.mp h with rfl | h
        · exact Or.inl rfl
        · exact Or.inr h
      · intro h
        rcases h with rfl | h
        · exact List.mem_cons_self _ _
        · exact List.mem_cons_of_mem _ h
    · split
      · rename_i hxz
        subst hxz
        constructor
        · intro h
          exact Or.inr h
        · intro h
          rcases h with rfl | h
          · exact List.mem_cons_self _ _
          · exact h
      · constructor
        · intro h
          rcases List.mem_cons.mp h with rfl | h
          · exact Or.inr (List.mem_cons_self _ _)
          · rcases ih.mp h with rfl | h
            · exact Or.inl rfl
            · exact Or.inr (List.mem_cons_of_mem _ h)
        · intro h
          rcases h with rfl | h
          · exact List.mem_cons_of_mem _ (ih.mpr (Or.inl rfl))
          · rcases List.mem_cons.mp h with rfl | h
            · exact List.mem_cons_self _ _
            · exact List.mem_cons_of_mem _ (ih.mpr (Or.inr h))

theorem bsInsert_ne_nil [LinearOrder D] (x : PN D) (l : List (PN D)) : bsInsert x l ≠ [] := by
  cases l with
  | nil => simp [bsInsert]
  | cons z zs =>
    unfold bsInsert
    split
    · simp
    · split <;> simp

theorem bsInsert_perm_of_not_mem [LinearOrder D] {x : PN D} {l : List (PN D)} (h : x ∉ l) :
    (bsInsert x l).Perm (x :: l) := by
  induction l with
  | nil => simp [bsInsert]
  | cons z zs ih =>
    unfold bsInsert
    split
    · exact List.Perm.refl _
    · split
      · rename_i hxz
        exact absurd (hxz ▸ List.mem_cons_self z zs) h
      · have hx : x ∉ zs := fun hm => h (List.mem_cons_of_mem z hm)
        exact List.Perm.trans ((ih hx).cons z) (List.Perm.swap x z zs)

theorem length_bsInsert_of_not_mem [LinearOrder D] {x : PN D} {l : List (PN D)} (h : x ∉ l) :
    (bsInsert x l).length = l.length + 1 := by
  simpa using (bsInsert_perm_of_not_mem h).length_eq

theorem length_bsInsert_le [LinearOrder D] (x : PN D) (l : List (PN D)) :
    (bsInsert x l).length ≤ l.length + 1 := by
  induction l with
  | nil => simp [bsInsert]
  | cons z zs ih =>
    unfold bsInsert
    split
    · simp
    · split
      · simp
      · simpa using Nat.succ_le_succ ih

theorem bsInsert_sorted [LinearOrder D] {x : PN D} {l : List (PN D)}
    (h : l.Pairwise pnLt) : (bsInsert x l).Pairwise pnLt := by
  induction l with
  | nil => simp [bsInsert]
  | cons z zs ih =>
    rcases List.pairwise_cons.mp h with ⟨hz, hzs⟩
    unfold bsInsert
    split
    · rename_i hxz
      refine List.pairwise_cons.mpr ⟨?_, h⟩
      intro y hy
      rcases List.mem_cons.mp hy with rfl | hy
      · exact hxz
      · exact pnLt_trans hxz (hz y hy)
    · split
      · exact h
      · rename_i hnlt hne
        refine List.pairwise_cons.mpr ⟨?_, ih hzs⟩
        intro y hy
        rcases mem_bsInsert.mp hy with rfl | hy
        · rcases pnLt_total y z with hlt | heq | hgt
          · exact absurd hlt hnlt
          · exact absurd heq hne
          · exact hgt
        · exact hz y hy

theorem dropLast_sorted [LinearOrder D] {l : List (PN D)} (h : l.Pairwise pnLt) :
    l.dropLast.Pairwise pnLt :=
  h.sublist (List.dropLast_sublist l)

theorem getLast?_mem {α : Type} {l : List α} {a : α} (h : l.getLast? = some a) : a ∈ l := by
  cases l with
  | nil => simp at h
  | cons x xs => exact List.mem_of_mem_getLast? h

theorem snsGo_length [LinearOrder D] (mmax : Nat) :
    ∀ (w : List (PN D)) (acc : List Nat), acc.length < mmax →
      (select_neighbors_simple_go mmax w acc).length ≤ mmax
  | [], acc, h => le_of_lt h
  | p :: rest, acc, h => by
    unfold select_neighbors_simple_go
    split
    · rename_i heq
      exact le_of_eq heq
    · rename_i hne
      refine snsGo_length mmax rest (acc ++ [p.2]) ?_
      have : (acc ++ [p.2]).length ≤ mmax := by
        simpa using Nat.succ_le_of_lt h
      exact lt_of_le_of_ne this hne

theorem select_neighbors_simple_length [LinearOrder D] (w : List (PN D)) {mmax : Nat}
    (h : 1 ≤ mmax) : (select_neighbors_simple w mmax).length ≤ mmax :=
  snsGo_length mmax w [] (by simpa using h)

theorem snsGo_subset [LinearOrder D] (mmax : Nat) :
    ∀ (w : List (PN D)) (acc : List Nat) (x : Nat),
      x ∈ select_neighbors_simple_go mmax w acc → x ∈ acc ∨ x ∈ w.map fun p => p.2
  | [], _, x, hx => Or.inl hx
  | p :: rest, acc, x, hx => by
    unfold select_neighbors_simple_go at hx
    split at hx
    · rcases List.mem_append.mp hx with h | h
      · exact Or.inl h
      · exact Or.inr (by simpa using Or.inl (List.mem_singleton.mp h))
    · rcases snsGo_subset mmax rest (acc ++ [p.2]) x hx with h | h
      · rcases List.mem_append.mp h with h | h
        · exact Or.inl h
        · exact Or.inr (by simpa using Or.inl (List.mem_singleton.mp h))
      · exact Or.inr (by simp only [List.map_cons, List.mem_cons]; exact Or.inr h)

theorem select_neighbors_simple_subset [LinearOrder D] {w : List (PN D)} {mmax : Nat} {x : Nat}
    (hx : x ∈ select_neighbors_simple w mmax) : x ∈ w.map fun p => p.2 := by
  rcases snsGo_subset mmax w [] x hx with h | h
  · simp at h
  · exact h

theorem mem_layerKeys_iff_lookup {L : Layer} {k : Nat} :
    k ∈ layerKeys L ↔ (layerLookup L k).isSome := by
  unfold layerKeys layerLookup
  rw [Option.isSome_map', List.find?_isSome]
  simp

theorem layerKeys_layerInsert_mem {L : Layer} {k : Nat} (v : List Nat)
    (h : k ∈ layerKeys L) : layerKeys (layerInsert L k v) = layerKeys L := by
  unfold layerInsert
  rw [if_pos h]
  unfold layerKeys
  rw [List.map_map]
  refine List.map_congr_left ?_
  intro p _
  by_cases hp : p.1 = k
  · simp [hp]
  · simp [hp]

theorem layerKeys_layerInsert_new {L : Layer} {k : Nat} (v : List Nat)
    (h : k ∉ layerKeys L) : layerKeys (layerInsert L k v) = layerKeys L ++ [k] := by
  unfold layerInsert
  rw [if_neg h]
  unfold layerKeys
  simp

theorem mem_layerInsert {L : Layer} {k : Nat} {v : List Nat} {p : Nat × List Nat}
    (hp : p ∈ layerInsert L k v) : p = (k, v) ∨ p ∈ L := by
  unfold layerInsert at hp
  split at hp
  · rcases List.mem_map.mp hp with ⟨q, hq, hqp⟩
    by_cases hqk : q.1 = k
    · simp only [hqk, beq_self_eq_true, if_true] at hqp
      exact Or.inl hqp.symm
    · simp only [hqk, beq_iff_eq, if_false] at hqp
      exact Or.inr (hqp ▸ hq)
  · rcases List.mem_append.mp hp with h | h
    · exact Or.inr h
    · exact Or.inl (List.mem_singleton.mp h)

theorem setLayer_length (layers : List Layer) (l : Nat) (L : Layer) :
    (setLayer layers l L).length = layers.length := by
  simp [setLayer]

theorem getLayer_setLayer_same {layers : List Layer} {l : Nat} (L : Layer)
    (h : l < layers.length) : getLayer (setLayer layers l L) l = L := by
  unfold getLayer setLayer
  rw [List.getD_eq_getElem?_getD, List.getElem?_set_self (by simpa using h)]
  rfl

theorem getLayer_setLayer_ne (layers : List Layer) {l l' : Nat} (L : Layer)
    (h : l ≠ l') : getLayer (setLayer layers l L) l' = getLayer layers l' := by
  unfold getLayer setLayer
  rw [List.getD_eq_getElem?_getD, List.getElem?_set_ne h, ← List.getD_eq_getElem?_getD]

theorem slStep_not_sel [LinearOrder D] [Inhabited V] (dist : V → V → D) (elements : List V)
    (q : V) (ef : Nat) (f_dist : D) (cId : Nat) (cs w : List (PN D)) (vis : List Nat)
    {e : Nat × List Nat} (h : cId ∉ e.2) :
    slStep dist elements q ef f_dist cId (cs, w, vis) e = (cs, w, vis) := by
  simp [slStep, h]

theorem slStep_visited [LinearOrder D] [Inhabited V] (dist : V → V → D) (elements : List V)
    (q : V) (ef : Nat) (f_dist : D) (cId : Nat) (cs w : List (PN D)) (vis : List Nat)
    {e : Nat × List Nat} (h1 : cId ∈ e.2) (h2 : e.1 ∈ vis) :
    slStep dist elements q ef f_dist cId (cs, w, vis) e = (cs, w, vis) := by
  simp [slStep, h1, h2]

theorem slStep_accept [LinearOrder D] [Inhabited V] (dist : V → V → D) (elements : List V)
    (q : V) (ef : Nat) (f_dist : D) (cId : Nat) (cs w : List (PN D)) (vis : List Nat)
    {e : Nat × List Nat} (h1 : cId ∈ e.2) (h2 : e.1 ∉ vis)
    (h3 : dist (elements.getD e.1 default) q < f_dist ∨ w.length < ef) :
    slStep dist elements q ef f_dist cId (cs, w, vis) e =
      (bsInsert (dist (elements.getD e.1 default) q, e.1) cs,
        (if ef < (bsInsert (dist (elements.getD e.1 default) q, e.1) w).length then
          (bsInsert (dist (elements.getD e.1 default) q, e.1) w).dropLast
        else bsInsert (dist (elements.getD e.1 default) q, e.1) w),
        e.1 :: vis) := by
  simp only [slStep, if_pos h1, if_neg h2, if_pos h3]

theorem slStep_reject [LinearOrder D] [Inhabited V] (dist : V → V → D) (elements : List V)
    (q : V) (ef : Nat) (f_dist : D) (cId : Nat) (cs w : List (PN D)) (vis : List Nat)
    {e : Nat × List Nat} (h1 : cId ∈ e.2) (h2 : e.1 ∉ vis)
    (h3 : ¬(dist (elements.getD e.1 default) q < f_dist ∨ w.length < ef)) :
    slStep dist elements q ef f_dist cId (cs, w, vis) e = (cs, w, e.1 :: vis) := by
  simp only [slStep, if_pos h1, if_neg h2, if_neg h3]

theorem slStep_inv [LinearOrder D] [Inhabited V] (dist : V → V → D) (elements : List V)
    (q : V) (ef : Nat) (f_dist : D) (cId : Nat) (scope : List Nat)
    (s : List (PN D) × List (PN D) × List Nat) (e : Nat × List Nat)
    (hescope : e.1 ∈ scope)
    (hinv : SLInv ef scope s.1 s.2.1 s.2.2) :
    SLInv ef scope (slStep dist elements q ef f_dist cId s e).1
        (slStep dist elements q ef f_dist cId s e).2.1
        (slStep dist elements q ef f_dist cId s e).2.2 ∧
      ∀ v ∈ s.2.2, v ∈ (slStep dist elements q ef f_dist cId s e).2.2 := by
  obtain ⟨cs, w, vis⟩ := s
  obtain ⟨hne, hnodup, hwvis, hcvis, hwsort, hcsort, hlen, hvscope⟩ := hinv
  by_cases h1 : cId ∈ e.2
  · by_cases h2 : e.1 ∈ vis
    · rw [slStep_visited dist elements q ef f_dist cId cs w vis h1 h2]
      exact ⟨⟨hne, hnodup, hwvis, hcvis, hwsort, hcsort, hlen, hvscope⟩, fun v hv => hv⟩
    · by_cases h3 : dist (elements.getD e.1 default) q < f_dist ∨ w.length < ef
      · rw [slStep_accept dist elements q ef f_dist cId cs w vis h1 h2 h3]
        dsimp only
        have hfresh : (dist (elements.getD e.1 default) q, e.1) ∉ w := fun hm =>
          h2 (hwvis _ hm)
        have hlen1 : (bsInsert (dist (elements.getD e.1 default) q, e.1) w).length
            = w.length + 1 := length_bsInsert_of_not_mem hfresh
        have hidperm : ((bsInsert (dist (elements.getD e.1 default) q, e.1) w).map
              fun p => p.2).Perm
            (e.1 :: w.map fun p => p.2) :=
          (bsInsert_perm_of_not_mem hfresh).map fun p => p.2
        have hnotin : e.1 ∉ w.map fun p => p.2 := by
          intro hm
          rcases List.mem_map.mp hm with ⟨p, hp, hpe⟩
          exact h2 (hpe ▸ hwvis p hp)
        have hwnodup1 : ((bsInsert (dist (elements.getD e.1 default) q, e.1) w).map
            fun p => p.2).Nodup :=
          hidperm.nodup_iff.mpr (List.nodup_cons.mpr ⟨hnotin, hnodup⟩)
        have hwpos : 0 < w.length := List.length_pos.mpr hne
        constructor
        · refine ⟨?_, ?_, ?_, ?_, ?_, ?_, ?_, ?_⟩
          · split
            · refine List.ne_nil_of_length_pos ?_
              rw [List.length_dropLast, hlen1]
              omega
            · exact bsInsert_ne_nil _ _
          · split
            · exact hwnodup1.sublist
                (List.Sublist.map (fun p : PN D => p.2) (List.dropLast_sublist _))
            · exact hwnodup1
          · intro p hp
            have hp1 : p ∈ bsInsert (dist (elements.getD e.1 default) q, e.1) w := by
              revert hp
              split
              · exact fun hp => (List.dropLast_sublist _).mem hp
              · exact fun hp => hp
            rcases mem_bsInsert.mp hp1 with rfl | hp2
            · exact List.mem_cons_self _ _
            · exact List.mem_cons_of_mem _ (hwvis _ hp2)
          · intro p hp
            rcases mem_bsInsert.mp hp with rfl | hp2
            · exact List.mem_cons_self _ _
            · exact List.mem_cons_of_mem _ (hcvis _ hp2)
          · split
            · exact dropLast_sorted (bsInsert_sorted hwsort)
            · exact bsInsert_sorted hwsort
          · exact bsInsert_sorted hcsort
          · split
            · rw [List.length_dropLast, hlen1]
              simpa using hlen
            · rename_i hgt
              push_neg at hgt
              exact le_trans hgt (le_max_right 1 ef)
          · intro v hv
            rcases List.mem_cons.mp hv with rfl | hv
            · exact hescope
            · exact hvscope v hv
        · exact fun v hv => List.mem_cons_of_mem _ hv
      · rw [slStep_reject dist elements q ef f_dist cId cs w vis h1 h2 h3]
        refine ⟨⟨hne, hnodup, fun p hp => List.mem_cons_of_mem _ (hwvis p hp),
          fun p hp => List.mem_cons_of_mem _ (hcvis p hp), hwsort, hcsort, hlen, ?_⟩,
          fun v hv => List.mem_cons_of_mem _ hv⟩
        intro v hv
        rcases List.mem_cons.mp hv with rfl | hv
        · exact hescope
        · exact hvscope v hv
  · rw [slStep_not_sel dist elements q ef f_dist cId cs w vis h1]
    exact ⟨⟨hne, hnodup, hwvis, hcvis, hwsort, hcsort, hlen, hvscope⟩, fun v hv => hv⟩

theorem slFold_inv [LinearOrder D] [Inhabited V] (dist : V → V → D) (elements : List V)
    (q : V) (ef : Nat) (f_dist : D) (cId : Nat) (scope : List Nat) :
    ∀ (es : List (Nat × List Nat)), (∀ e ∈ es, e.1 ∈ scope) →
      ∀ (s : List (PN D) × List (PN D) × List Nat), SLInv ef scope s.1 s.2.1 s.2.2 →
        SLInv ef scope (es.foldl (slStep dist elements q ef f_dist cId) s).1
            (es.foldl (slStep dist elements q ef f_dist cId) s).2.1
            (es.foldl (slStep dist elements q ef f_dist cId) s).2.2 ∧
          ∀ v ∈ s.2.2, v ∈ (es.foldl (slStep dist elements q ef f_dist cId) s).2.2
  | [], _, s, hinv => ⟨hinv, fun _ hv => hv⟩
  | e :: es, hes, s, hinv => by
    rw [List.foldl_cons]
    have hstep := slStep_inv dist elements q ef f_dist cId scope s e
      (hes e (List.mem_cons_self e es)) hinv
    have hrest := slFold_inv dist elements q ef f_dist cId scope es
      (fun x hx => hes x (List.mem_cons_of_mem e hx))
      (slStep dist elements q ef f_dist cId s e) hstep.1
    exact ⟨hrest.1, fun v hv => hrest.2 v (hstep.2 v hv)⟩

theorem slLoop_out [LinearOrder D] [Inhabited V] (dist : V → V → D) (elements : List V)
    (entries : Layer) (q : V) (ef : Nat) (scope : List Nat)
    (hkeys : ∀ k ∈ layerKeys entries, k ∈ scope) :
    ∀ (fuel : Nat) (cs w : List (PN D)) (vis : List Nat), SLInv ef scope cs w vis →
      slLoop dist elements entries q ef fuel cs w vis ≠ [] ∧
        ((slLoop dist elements entries q ef fuel cs w vis).map fun p => p.2).Nodup ∧
        (∀ p ∈ slLoop dist elements entries q ef fuel cs w vis, p.2 ∈ scope) ∧
        (slLoop dist elements entries q ef fuel cs w vis).Pairwise pnLt ∧
        (slLoop dist elements entries q ef fuel cs w vis).length ≤ max 1 ef := by
  intro fuel
  induction fuel with
  | zero =>
    intro cs w vis hinv
    obtain ⟨hne, hnodup, hwvis, _, hwsort, _, hlen, hvscope⟩ := hinv
    cases cs <;>
      exact ⟨hne, hnodup, fun p hp => hvscope p.2 (hwvis p hp), hwsort, hlen⟩
  | succ fuel ih =>
    intro cs w vis hinv
    obtain ⟨hne, hnodup, hwvis, hcvis, hwsort, hcsort, hlen, hvscope⟩ := hinv
    cases cs with
    | nil => exact ⟨hne, hnodup, fun p hp => hvscope p.2 (hwvis p hp), hwsort, hlen⟩
    | cons c rest =>
      show _ ∧ _
      rw [slLoop]
      dsimp only
      split
      · exact ⟨hne, hnodup, fun p hp => hvscope p.2 (hwvis p hp), hwsort, hlen⟩
      · have hinv1 : SLInv (D := D) ef scope rest w vis :=
          ⟨hne, hnodup, hwvis, fun p hp => hcvis p (List.mem_cons_of_mem c hp), hwsort,
            hcsort.of_cons, hlen, hvscope⟩
        have hfold := slFold_inv dist elements q ef
          (match rest.getLast? with
            | some f => f.1
            | none => c.1) c.2 scope entries
          (fun e he => hkeys e.1 (List.mem_map_of_mem (fun p => p.1) he))
          (rest, w, vis) hinv1
        exact ih _ _ _ hfold.1

theorem search_layer_out [LinearOrder D] [Inhabited V] (dist : V → V → D) (elements : List V)
    (entries : Layer) (q : V) (ep ef : Nat) :
    search_layer dist elements entries q ep ef ≠ [] ∧
      ((search_layer dist elements entries q ep ef).map fun p => p.2).Nodup ∧
      (∀ p ∈ search_layer dist elements entries q ep ef,
        p.2 = ep ∨ p.2 ∈ layerKeys entries) ∧
      (search_layer dist elements entries q ep ef).Pairwise pnLt ∧
      (search_layer dist elements entries q ep ef).length ≤ max 1 ef := by
  have hinit : SLInv (D := D) ef (ep :: layerKeys entries)
      [(dist (elements.getD ep default) q, ep)] [(dist (elements.getD ep default) q, ep)]
      [ep] := by
    refine ⟨by simp, by simp, by simp, by simp, List.pairwise_singleton _ _,
      List.pairwise_singleton _ _, by simpa using Nat.le_max_left 1 ef, by simp⟩
  have h := slLoop_out dist elements entries q ef (ep :: layerKeys entries)
    (fun k hk => List.mem_cons_of_mem ep hk) (2 * entries.length + 1) _ _ _ hinit
  refine ⟨h.1, h.2.1, fun p hp => ?_, h.2.2.2.1, h.2.2.2.2⟩
  rcases List.mem_cons.mp (h.2.2.1 p hp) with hpe | hpk
  · exact Or.inl hpe
  · exact Or.inr hpk

theorem filter_length_succ_le {l : List Nat} {p q : Nat → Bool} (hpq : ∀ a, q a = true → p a = true)
    {x : Nat} (hx : x ∈ l) (hpx : p x = true) (hqx : q x = false) :
    (l.filter q).length + 1 ≤ (l.filter p).length := by
  induction l with
  | nil => simp at hx
  | cons y ys ih =>
    rcases List.mem_cons.mp hx with rfl | hx
    · rw [List.filter_cons, List.filter_cons, hpx, hqx]
      simp only [if_true, if_false, List.length_cons]
      have hsub : (ys.filter q).Sublist (ys.filter p) :=
        List.monotone_filter_right ys hpq
      exact Nat.succ_le_succ hsub.length_le
    · rw [List.filter_cons, List.filter_cons]
      by_cases hqy : q y = true
      · rw [hqy, hpq y hqy]
        simpa using ih hx
      · rw [Bool.not_eq_true] at hqy
        rw [hqy]
        by_cases hpy : p y = true
        · rw [hpy]
          simp only [if_true, if_false, List.length_cons]
          exact le_trans (ih hx) (Nat.le_succ _)
        · rw [Bool.not_eq_true] at hpy
          rw [hpy]
          simpa using ih hx

theorem unvis_mono {entries : Layer} {vis vis' : List Nat} (h : ∀ v ∈ vis, v ∈ vis') :
    (((layerKeys entries).filter fun k => decide (k ∉ vis')).length)
      ≤ ((layerKeys entries).filter fun k => decide (k ∉ vis)).length := by
  refine List.Sublist.length_le (List.monotone_filter_right _ ?_)
  intro a ha
  simp only [decide_eq_true_eq] at ha ⊢
  exact fun hm => ha (h a hm)

theorem slStep_measure [LinearOrder D] [Inhabited V] (dist : V → V → D) (elements : List V)
    (q : V) (ef : Nat) (f_dist : D) (cId : Nat) (entries : Layer)
    (s : List (PN D) × List (PN D) × List Nat) (e : Nat × List Nat)
    (he : e.1 ∈ layerKeys entries) :
    slMeasure entries (slStep dist elements q ef f_dist cId s e).1
        (slStep dist elements q ef f_dist cId s e).2.2 ≤ slMeasure entries s.1 s.2.2 ∧
      ∀ v ∈ s.2.2, v ∈ (slStep dist elements q ef f_dist cId s e).2.2 := by
  obtain ⟨cs, w, vis⟩ := s
  by_cases h1 : cId ∈ e.2
  · by_cases h2 : e.1 ∈ vis
    · rw [slStep_visited dist elements q ef f_dist cId cs w vis h1 h2]
      exact ⟨le_refl _, fun v hv => hv⟩
    · have hdec : ((layerKeys entries).filter fun k => decide (k ∉ e.1 :: vis)).length + 1
          ≤ ((layerKeys entries).filter fun k => decide (k ∉ vis)).length := by
        refine filter_length_succ_le ?_ he (by simpa using h2) (by simp)
        intro a ha
        simp only [decide_eq_true_eq] at ha ⊢
        exact fun hm => ha (List.mem_cons_of_mem _ hm)
      by_cases h3 : dist (elements.getD e.1 default) q < f_dist ∨ w.length < ef
      · rw [slStep_accept dist elements q ef f_dist cId cs w vis h1 h2 h3]
        dsimp only
        refine ⟨?_, fun v hv => List.mem_cons_of_mem _ hv⟩
        unfold slMeasure
        have hcs := length_bsInsert_le (dist (elements.getD e.1 default) q, e.1) cs
        omega
      · rw [slStep_reject dist elements q ef f_dist cId cs w vis h1 h2 h3]
        dsimp only
        refine ⟨?_, fun v hv => List.mem_cons_of_mem _ hv⟩
        unfold slMeasure
        omega
  · rw [slStep_not_sel dist elements q ef f_dist cId cs w vis h1]
    exact ⟨le_refl _, fun v hv => hv⟩

theorem slFold_measure [LinearOrder D] [Inhabited V] (dist : V → V → D) (elements : List V)
    (q : V) (ef : Nat) (f_dist : D) (cId : Nat) (entries : Layer) :
    ∀ (es : List (Nat × List Nat)), (∀ e ∈ es, e.1 ∈ layerKeys entries) →
      ∀ (s : List (PN D) × List (PN D) × List Nat),
        slMeasure entries (es.foldl (slStep dist elements q ef f_dist cId) s).1
          (es.foldl (slStep dist elements q ef f_dist cId) s).2.2
          ≤ slMeasure entries s.1 s.2.2
  | [], _, s => le_refl _
  | e :: es, hes, s => by
    rw [List.foldl_cons]
    refine le_trans (slFold_measure dist elements q ef f_dist cId entries es
      (fun x hx => hes x (List.mem_cons_of_mem e hx)) _) ?_
    exact (slStep_measure dist elements q ef f_dist cId entries s e
      (hes e (List.mem_cons_self e es))).1

theorem slLoop_stable [LinearOrder D] [Inhabited V] (dist : V → V → D) (elements : List V)
    (entries : Layer) (q : V) (ef : Nat) :
    ∀ (fuel extra : Nat) (cs w : List (PN D)) (vis : List Nat),
      slMeasure entries cs vis ≤ fuel →
      slLoop dist elements entries q ef (fuel + extra) cs w vis
        = slLoop dist elements entries q ef fuel cs w vis := by
  intro fuel
  induction fuel with
  | zero =>
    intro extra cs w vis hm
    cases cs with
    | nil => cases extra <;> rfl
    | cons c rest =>
      exfalso
      unfold slMeasure at hm
      simp at hm
  | succ fuel ih =>
    intro extra cs w vis hm
    cases cs with
    | nil => cases h : fuel + 1 + extra <;> rfl
    | cons c rest =>
      have harr : fuel + 1 + extra = (fuel + extra) + 1 := by omega
      rw [harr]
      rw [slLoop, slLoop]
      dsimp only
      split
      · rfl
      · refine ih extra _ _ _ ?_
        have hfold := slFold_measure dist elements q ef
          (match rest.getLast? with
            | some f => f.1
            | none => c.1) c.2 entries entries
          (fun e he => List.mem_map_of_mem (fun p => p.1) he) (rest, w, vis)
        dsimp only at hfold
        have : slMeasure entries rest vis + 1 = slMeasure entries (c :: rest) vis := by
          unfold slMeasure
          simp only [List.length_cons]
          omega
        omega

theorem search_layer_fuel_stable [LinearOrder D] [Inhabited V] (dist : V → V → D)
    (elements : List V) (entries : Layer) (q : V) (ep ef : Nat) (extra : Nat) :
    search_layerFuel extra dist elements entries q ep ef
      = search_layer dist elements entries q ep ef := by
  unfold search_layerFuel search_layer
  refine slLoop_stable dist elements entries q ef (2 * entries.length + 1) extra _ _ _ ?_
  unfold slMeasure
  have h1 : (((layerKeys entries).filter fun k => decide (k ∉ [ep]))).length
      ≤ (layerKeys entries).length := List.length_filter_le _ _
  have hk : (layerKeys entries).length = entries.length := by
    simp [layerKeys]
  simp only [List.length_singleton]
  omega

theorem slStep_cs_sorted [LinearOrder D] [Inhabited V] (dist : V → V → D) (elements : List V)
    (q : V) (ef : Nat) (f_dist : D) (cId : Nat)
    (s : List (PN D) × List (PN D) × List Nat) (e : Nat × List Nat)
    (h : s.1.Pairwise pnLt) : (slStep dist elements q ef f_dist cId s e).1.Pairwise pnLt := by
  obtain ⟨cs, w, vis⟩ := s
  by_cases h1 : cId ∈ e.2
  · by_cases h2 : e.1 ∈ vis
    · rw [slStep_visited dist elements q ef f_dist cId cs w vis h1 h2]
      exact h
    · by_cases h3 : dist (elements.getD e.1 default) q < f_dist ∨ w.length < ef
      · rw [slStep_accept dist elements q ef f_dist cId cs w vis h1 h2 h3]
        exact bsInsert_sorted h
      · rw [slStep_reject dist elements q ef f_dist cId cs w vis h1 h2 h3]
        exact h
  · rw [slStep_not_sel dist elements q ef f_dist cId cs w vis h1]
    exact h

theorem slFold_cs_sorted [LinearOrder D] [Inhabited V] (dist : V → V → D) (elements : List V)
    (q : V) (ef : Nat) (f_dist : D) (cId : Nat) :
    ∀ (es : List (Nat × List Nat)) (s : List (PN D) × List (PN D) × List Nat),
      s.1.Pairwise pnLt → (es.foldl (slStep dist elements q ef f_dist cId) s).1.Pairwise pnLt
  | [], _, h => h
  | e :: es, s, h => by
    rw [List.foldl_cons]
    exact slFold_cs_sorted dist elements q ef f_dist cId es _
      (slStep_cs_sorted dist elements q ef f_dist cId s e h)

theorem slLoop_eq_noBreak [LinearOrder D] [Inhabited V] (dist : V → V → D) (elements : List V)
    (entries : Layer) (q : V) (ef : Nat) :
    ∀ (fuel : Nat) (cs w : List (PN D)) (vis : List Nat), cs.Pairwise pnLt →
      slLoop dist elements entries q ef fuel cs w vis
        = slLoopNB dist elements entries q ef fuel cs w vis := by
  intro fuel
  induction fuel with
  | zero =>
    intro cs w vis _
    cases cs <;> rfl
  | succ fuel ih =>
    intro cs w vis hsort
    cases cs with
    | nil => rfl
    | cons c rest =>
      rw [slLoop, slLoopNB]
      dsimp only
      have hbreak : ¬ (match rest.getLast? with
          | some f => f.1
          | none => c.1) < c.1 := by
        cases hl : rest.getLast? with
        | none => exact lt_irrefl c.1
        | some f =>
          have hf : f ∈ rest := getLast?_mem hl
          have := (List.pairwise_cons.mp hsort).1 f hf
          exact not_lt_of_le (pnLt_fst_le this)
      rw [if_neg hbreak]
      exact ih _ _ _ (slFold_cs_sorted dist elements q ef _ c.2 entries (rest, w, vis)
        ((List.pairwise_cons.mp hsort).2))

theorem search_layer_eq_noBreak [LinearOrder D] [Inhabited V] (dist : V → V → D)
    (elements : List V) (entries : Layer) (q : V) (ep ef : Nat) :
    search_layer dist elements entries q ep ef = search_layerNB dist elements entries q ep ef :=
  slLoop_eq_noBreak dist elements entries q ef (2 * entries.length + 1) _ _ _
    (List.pairwise_singleton _ _)

theorem slStep_eq_spec [LinearOrder D] [Inhabited V] (dist : V → V → D) (elements : List V)
    (q : V) (ef : Nat) (f_dist : D) (cId : Nat)
    (s : List (PN D) × List (PN D) × List Nat) (e : Nat × List Nat)
    (hlen : s.2.1.length ≤ ef) :
    slStep dist elements q ef f_dist cId s e = slStepSpec dist elements q ef f_dist cId s e ∧
      (slStep dist elements q ef f_dist cId s e).2.1.length ≤ ef := by
  obtain ⟨cs, w, vis⟩ := s
  by_cases h1 : cId ∈ e.2
  · by_cases h2 : e.1 ∈ vis
    · rw [slStep_visited dist elements q ef f_dist cId cs w vis h1 h2]
      exact ⟨by simp [slStepSpec, h1, h2], hlen⟩
    · by_cases h3 : dist (elements.getD e.1 default) q < f_dist ∨ w.length < ef
      · rw [slStep_accept dist elements q ef f_dist cId cs w vis h1 h2 h3]
        dsimp only at hlen
        have hw1 := length_bsInsert_le (dist (elements.getD e.1 default) q, e.1) w
        have hw : (if ef < (bsInsert (dist (elements.getD e.1 default) q, e.1) w).length then
              (bsInsert (dist (elements.getD e.1 default) q, e.1) w).dropLast
            else bsInsert (dist (elements.getD e.1 default) q, e.1) w)
              = List.take ef (bsInsert (dist (elements.getD e.1 default) q, e.1) w) := by
          split
          · rename_i hgt
            rw [List.dropLast_eq_take]
            congr 1
            omega
          · rename_i hgt
            rw [List.take_of_length_le (by omega)]
        constructor
        · simp only [slStepSpec, if_pos h1, if_neg h2, if_pos h3]
          rw [hw]
        · dsimp only
          rw [hw, List.length_take]
          omega
      · rw [slStep_reject dist elements q ef f_dist cId cs w vis h1 h2 h3]
        exact ⟨by simp only [slStepSpec, if_pos h1, if_neg h2, if_neg h3], hlen⟩
  · rw [slStep_not_sel dist elements q ef f_dist cId cs w vis h1]
    exact ⟨by simp [slStepSpec, h1], hlen⟩

theorem slFold_eq_spec [LinearOrder D] [Inhabited V] (dist : V → V → D) (elements : List V)
    (q : V) (ef : Nat) (f_dist : D) (cId : Nat) :
    ∀ (es : List (Nat × List Nat)) (s : List (PN D) × List (PN D) × List Nat),
      s.2.1.length ≤ ef →
      es.foldl (slStep dist elements q ef f_dist cId) s
          = es.foldl (slStepSpec dist elements q ef f_dist cId) s ∧
        (es.foldl (slStep dist elements q ef f_dist cId) s).2.1.length ≤ ef
  | [], _, hlen => ⟨rfl, hlen⟩
  | e :: es, s, hlen => by
    rw [List.foldl_cons, List.foldl_cons]
    have hstep := slStep_eq_spec dist elements q ef f_dist cId s e hlen
    rw [← hstep.1]
    exact slFold_eq_spec dist elements q ef f_dist cId es _ hstep.2

theorem slLoop_eq_spec [LinearOrder D] [Inhabited V] (dist : V → V → D) (elements : List V)
    (entries : Layer) (q : V) (ef : Nat) :
    ∀ (fuel : Nat) (cs w : List (PN D)) (vis : List Nat), w.length ≤ ef →
      slLoop dist elements entries q ef fuel cs w vis
        = slLoopSpec dist elements entries q ef fuel cs w vis := by
  intro fuel
  induction fuel with
  | zero =>
    intro cs w vis _
    cases cs <;> rfl
  | succ fuel ih =>
    intro cs w vis hlen
    cases cs with
    | nil => rfl
    | cons c rest =>
      rw [slLoop, slLoopSpec]
      dsimp only
      split
      · rfl
      · have hfold := slFold_eq_spec dist elements q ef
          (match rest.getLast? with
            | some f => f.1
            | none => c.1) c.2 entries (rest, w, vis) hlen
        rw [← hfold.1]
        exact ih _ _ _ hfold.2

theorem search_layer_eq_spec [LinearOrder D] [Inhabited V] (dist : V → V → D)
    (elements : List V) (entries : Layer) (q : V) (ep ef : Nat) (hef : 1 ≤ ef) :
    search_layer dist elements entries q ep ef
      = spec_search_layer dist elements entries q ep ef :=
  slLoop_eq_spec dist elements entries q ef (2 * entries.length + 1) _ _ _ (by simpa using hef)

theorem getLayer_append_replicate (layers : List Layer) (n l : Nat) :
    getLayer (layers ++ List.replicate n []) l = getLayer layers l := by
  induction layers generalizing l with
  | nil =>
    simp only [List.nil_append]
    induction n generalizing l with
    | zero => rfl
    | succ m ih =>
      cases l with
      | zero => rfl
      | succ l => simpa [getLayer] using ih l
  | cons L ls ih =>
    cases l with
    | zero => rfl
    | succ l => simpa [getLayer] using ih l

theorem layerLookup_mem {L : Layer} {k : Nat} {conn : List Nat}
    (h : layerLookup L k = some conn) : (k, conn) ∈ L := by
  unfold layerLookup at h
  rcases Option.map_eq_some'.mp h with ⟨p, hfind, hp2⟩
  have hmem := List.mem_of_find?_eq_some hfind
  have hpred := List.find?_some hfind
  simp only [beq_iff_eq] at hpred
  have hpk : p = (k, conn) := by
    cases p
    simp_all
  exact hpk ▸ hmem

theorem layerLookup_isSome_of_mem {L : Layer} {k : Nat} (h : k ∈ layerKeys L) :
    ∃ conn, layerLookup L k = some conn := by
  have := mem_layerKeys_iff_lookup.mp h
  exact Option.isSome_iff_exists.mp this

theorem connect_neighbors_eq_props [LinearOrder D] [Inhabited V] (dist : V → V → D)
    (elements : List V) (mmax id : Nat) (q : V) :
    ∀ (nbrs : List Nat) (layer layerO : Layer),
      connect_neighbors dist elements mmax id q layer nbrs = some layerO →
      layerKeys layerO = layerKeys layer ∧
        (1 ≤ mmax → (∀ p ∈ layer, p.2.length ≤ mmax) → ∀ p ∈ layerO, p.2.length ≤ mmax)
  | [], layer, layerO, h => by
    unfold connect_neighbors at h
    cases h
    exact ⟨rfl, fun _ hdeg => hdeg⟩
  | e :: rest, layer, layerO, h => by
    unfold connect_neighbors at h
    cases hl : layerLookup layer e with
    | none => rw [hl] at h; cases h
    | some conn =>
      rw [hl] at h
      have hek : e ∈ layerKeys layer := by
        rw [mem_layerKeys_iff_lookup, hl]
        rfl
      have hpair : (e, conn) ∈ layer := layerLookup_mem hl
      have ih := connect_neighbors_eq_props dist elements mmax id q rest _ layerO h
      refine ⟨ih.1.trans (layerKeys_layerInsert_mem _ hek), ?_⟩
      intro h1 hdeg
      refine ih.2 h1 ?_
      intro p hp
      rcases mem_layerInsert hp with rfl | hpold
      · by_cases hc : mmax ≤ conn.length
        · simp only [if_pos hc]
          exact select_neighbors_simple_length _ h1
        · simp only [if_neg hc]
          push_neg at hc
          simp only [List.length_append, List.length_singleton]
          omega
      · exact hdeg p hpold

theorem connect_neighbors_isSome [LinearOrder D] [Inhabited V] (dist : V → V → D)
    (elements : List V) (mmax id : Nat) (q : V) :
    ∀ (nbrs : List Nat) (layer : Layer), (∀ e ∈ nbrs, e ∈ layerKeys layer) →
      ∃ layerO, connect_neighbors dist elements mmax id q layer nbrs = some layerO
  | [], layer, _ => ⟨layer, rfl⟩
  | e :: rest, layer, hmem => by
    unfold connect_neighbors
    rcases layerLookup_isSome_of_mem (hmem e (List.mem_cons_self e rest)) with ⟨conn, hl⟩
    rw [hl]
    refine connect_neighbors_isSome dist elements mmax id q rest _ ?_
    intro x hx
    rw [layerKeys_layerInsert_mem _ (by rw [mem_layerKeys_iff_lookup, hl]; rfl)]
    exact hmem x (List.mem_cons_of_mem e hx)

theorem degOK_setLayer {M M0 : Nat} {layers : List Layer} {lc : Nat} {L : Layer}
    (hdeg : degOK M M0 layers) (hL : ∀ p ∈ L, p.2.length ≤ if lc = 0 then M0 else M) :
    degOK M M0 (setLayer layers lc L) := by
  intro l p hp
  by_cases hll : lc = l
  · subst hll
    by_cases hlen : lc < layers.length
    · rw [getLayer_setLayer_same L hlen] at hp
      exact hL p hp
    · have : setLayer layers lc L = layers := by
        unfold setLayer
        exact List.set_eq_of_length_le (by omega)
      rw [this] at hp
      exact hdeg lc p hp
  · rw [getLayer_setLayer_ne layers L (fun hc => hll hc)] at hp
    exact hdeg l p hp

theorem insert_loop_deg [LinearOrder D] [Inhabited V] (dist : V → V → D) (elements : List V)
    (M M0 EFC id : Nat) (q : V) (hM : 1 ≤ M) (hM0 : 1 ≤ M0) :
    ∀ (lcs : List Nat) (layers : List Layer) (ep : Nat) (out : List Layer × Nat),
      insert_loop dist elements M M0 EFC id q lcs layers ep = some out →
      degOK M M0 layers → degOK M M0 out.1
  | [], layers, ep, out, h, hdeg => by
    unfold insert_loop at h
    cases h
    exact hdeg
  | lc :: rest, layers, ep, out, h, hdeg => by
    unfold insert_loop at h
    dsimp only at h
    cases hcn : connect_neighbors dist elements (if lc = 0 then M0 else M) id q
        (layerInsert (getLayer layers lc)
          id (select_neighbors_simple
            (search_layer dist elements (getLayer layers lc) q ep EFC)
            (if lc = 0 then M0 else M)))
        (select_neighbors_simple (search_layer dist elements (getLayer layers lc) q ep EFC)
          (if lc = 0 then M0 else M)) with
    | none => rw [hcn] at h; cases h
    | some layerO =>
      rw [hcn] at h
      cases hw : (search_layer dist elements (getLayer layers lc) q ep EFC).head? with
      | none => rw [hw] at h; cases h
      | some n =>
        rw [hw] at h
        have hmm : 1 ≤ if lc = 0 then M0 else M := by
          split <;> assumption
        have hprops := connect_neighbors_eq_props dist elements _ id q _ _ _ hcn
        have hbase : ∀ p ∈ layerInsert (getLayer layers lc)
            id (select_neighbors_simple
              (search_layer dist elements (getLayer layers lc) q ep EFC)
              (if lc = 0 then M0 else M)),
            p.2.length ≤ if lc = 0 then M0 else M := by
          intro p hp
          rcases mem_layerInsert hp with rfl | hpold
          · exact select_neighbors_simple_length _ hmm
          · exact hdeg lc p hpold
        exact insert_loop_deg dist elements M M0 EFC id q hM hM0 rest _ n.2 out h
          (degOK_setLayer hdeg (hprops.2 hmm hbase))

theorem extend_upper_deg {M M0 : Nat} {id : Nat} :
    ∀ (lcs : List Nat) (layers layersO : List Layer),
      extend_upper id lcs layers = some layersO → degOK M M0 layers → degOK M M0 layersO
  | [], layers, layersO, h, hdeg => by
    unfold extend_upper at h
    cases h
    exact hdeg
  | lc :: rest, layers, layersO, h, hdeg => by
    unfold extend_upper at h
    split at h
    · cases h
    · refine extend_upper_deg rest _ layersO h ?_
      refine degOK_setLayer hdeg ?_
      intro p hp
      rcases mem_layerInsert hp with rfl | hpold
      · simp
      · exact hdeg lc p hpold

theorem foldl_insert_empty_deg {M M0 : Nat} {id : Nat} :
    ∀ (lcs : List Nat) (layers : List Layer), degOK M M0 layers →
      degOK M M0 (lcs.foldl
        (fun ls lc => setLayer ls lc (layerInsert (getLayer ls lc) id [])) layers)
  | [], _, hdeg => hdeg
  | lc :: rest, layers, hdeg => by
    rw [List.foldl_cons]
    refine foldl_insert_empty_deg rest _ (degOK_setLayer hdeg ?_)
    intro p hp
    rcases mem_layerInsert hp with rfl | hpold
    · simp
    · exact hdeg lc p hpold

theorem insert_first_element_deg {M M0 : Nat} {id : Nat} (level : Nat) (layers : List Layer)
    (hdeg : degOK M M0 layers) : degOK M M0 (insert_first_element id level layers) :=
  foldl_insert_empty_deg (List.range (level + 1)) layers hdeg

theorem degOK_append_replicate {M M0 : Nat} {layers : List Layer} {n : Nat}
    (hdeg : degOK M M0 layers) : degOK M M0 (layers ++ List.replicate n []) := by
  intro l p hp
  rw [getLayer_append_replicate] at hp
  exact hdeg l p hp

theorem hnsw_insert_deg [LinearOrder D] [Inhabited V] {dist : V → V → D} {M M0 EFC : Nat}
    {st st' : Hnsw V} {q : V} {level : Nat} (hM : 1 ≤ M) (hM0 : 1 ≤ M0)
    (h : Hnsw.insert dist M M0 EFC st q level = some st')
    (hdeg : degOK M M0 st.layers) : degOK M M0 st'.layers := by
  unfold Hnsw.insert at h
  cases hep : st.enter_point with
  | none =>
    rw [hep] at h
    dsimp only at h
    cases h
    exact insert_first_element_deg level _ (degOK_append_replicate hdeg)
  | some ep =>
    rw [hep] at h
    dsimp only at h
    cases hie : insert_element dist st.elements M M0 EFC q ep st.elements.length level
        (st.layers.length - 1) (st.layers ++ List.replicate (level + 1 - st.layers.length) [])
        with
    | none => rw [hie] at h; cases h
    | some layersO =>
      rw [hie] at h
      cases h
      unfold insert_element at hie
      dsimp only at hie
      cases hil : insert_loop dist st.elements M M0 EFC st.elements.length q
          ((List.range (min (st.layers.length - 1) level + 1)).reverse)
          (st.layers ++ List.replicate (level + 1 - st.layers.length) [])
          (descend dist st.elements
            (st.layers ++ List.replicate (level + 1 - st.layers.length) []) q
            ((List.range' (level + 1) (st.layers.length - 1 - level)).reverse) ep) with
      | none => rw [hil] at hie; cases hie
      | some out =>
        rw [hil] at hie
        have hdeg1 := insert_loop_deg dist st.elements M M0 EFC st.elements.length q hM hM0
          _ _ _ out hil (degOK_append_replicate hdeg)
        exact extend_upper_deg _ out.1 layersO hie hdeg1

theorem buildIndex_deg [LinearOrder D] [Inhabited V] (dist : V → V → D) (M M0 EFC : Nat)
    (hM : 1 ≤ M) (hM0 : 1 ≤ M0) (hist : List (V × Nat)) :
    ∀ st, buildIndex dist M M0 EFC hist = some st → degOK M M0 st.layers := by
  induction hist using List.reverseRecOn with
  | nil =>
    intro st h
    cases h
    intro l p hp
    simp [getLayer, Hnsw.new] at hp
  | append_singleton hist x ih =>
    intro st h
    unfold buildIndex at h
    rw [List.foldl_append] at h
    rcases Option.bind_eq_some.mp h with ⟨st0, hst0, hins⟩
    exact hnsw_insert_deg hM hM0 hins (ih st0 hst0)

theorem get?_some_lt {α : Type} {l : List α} {i : Nat} {p : α} (h : l.get? i = some p) :
    i < l.length := by
  by_contra hc
  rw [List.get?_len_le (by omega)] at h
  cases h

theorem range_reverse_succ (n : Nat) :
    (List.range (n + 1)).reverse = n :: (List.range n).reverse := by
  rw [List.range_succ, List.reverse_append]
  rfl

theorem range'_reverse_succ (s n : Nat) :
    (List.range' s (n + 1)).reverse = (s + n) :: (List.range' s n).reverse := by
  rw [List.range'_1_concat, List.reverse_append]
  rfl

theorem foldl_insert_empty_length (idn : Nat) :
    ∀ (lcs : List Nat) (layers : List Layer),
      (lcs.foldl (fun ls lc => setLayer ls lc (layerInsert (getLayer ls lc) idn []))
        layers).length = layers.length
  | [], _ => rfl
  | lc :: rest, layers => by
    rw [List.foldl_cons, foldl_insert_empty_length idn rest, setLayer_length]

theorem foldl_insert_empty_get (idn : Nat) :
    ∀ (lcs : List Nat) (layers : List Layer), lcs.Nodup →
      (∀ lc ∈ lcs, lc < layers.length) → ∀ l,
        getLayer (lcs.foldl
          (fun ls lc => setLayer ls lc (layerInsert (getLayer ls lc) idn [])) layers) l
          = if l ∈ lcs then layerInsert (getLayer layers l) idn [] else getLayer layers l
  | [], _, _, _, l => by simp
  | lc :: rest, layers, hnd, hbnd, l => by
    rw [List.foldl_cons]
    have hnd2 := List.nodup_cons.mp hnd
    have hget := foldl_insert_empty_get idn rest
      (setLayer layers lc (layerInsert (getLayer layers lc) idn [])) hnd2.2
      (fun x hx => by
        rw [setLayer_length]
        exact hbnd x (List.mem_cons_of_mem lc hx)) l
    rw [hget]
    by_cases hl : l ∈ rest
    · have hne : lc ≠ l := fun hc => hnd2.1 (hc ▸ hl)
      rw [if_pos hl, if_pos (List.mem_cons_of_mem lc hl),
        getLayer_setLayer_ne layers _ hne]
    · rw [if_neg hl]
      by_cases hll : l = lc
      · subst hll
        rw [if_pos (List.mem_cons_self l rest),
          getLayer_setLayer_same _ (hbnd l (List.mem_cons_self l rest))]
      · rw [if_neg (by
          intro hc
          rcases List.mem_cons.mp hc with hc | hc
          · exact hll hc
          · exact hl hc),
          getLayer_setLayer_ne layers _ (fun hc => hll hc.symm)]

theorem extend_upper_mem (idn : Nat) :
    ∀ (lcs : List Nat) (layers : List Layer), lcs.Nodup →
      (∀ lc ∈ lcs, idn ∉ layerKeys (getLayer layers lc) ∧ lc < layers.length) →
      ∃ layersO, extend_upper idn lcs layers = some layersO ∧
        (∀ l ∈ lcs, layerKeys (getLayer layersO l) = layerKeys (getLayer layers l) ++ [idn]) ∧
        (∀ l, l ∉ lcs → getLayer layersO l = getLayer layers l) ∧
        layersO.length = layers.length
  | [], layers, _, _ => ⟨layers, rfl, by simp, fun _ _ => rfl, rfl⟩
  | lc :: rest, layers, hnd, hbnd => by
    have hnd2 := List.nodup_cons.mp hnd
    have hlc := hbnd lc (List.mem_cons_self lc rest)
    have step := extend_upper_mem idn rest
      (setLayer layers lc (layerInsert (getLayer layers lc) idn [])) hnd2.2
      (fun x hx => by
        have hxne : x ≠ lc := fun hc => hnd2.1 (hc ▸ hx)
        rw [getLayer_setLayer_ne layers _ (fun hc => hxne hc.symm), setLayer_length]
        exact hbnd x (List.mem_cons_of_mem lc hx))
    rcases step with ⟨layersO, hext, hmem, hother, hlenO⟩
    refine ⟨layersO, ?_, ?_, ?_, by rw [hlenO, setLayer_length]⟩
    · unfold extend_upper
      rw [if_neg hlc.1]
      exact hext
    · intro l hl
      rcases List.mem_cons.mp hl with rfl | hl
      · rw [hother l hnd2.1, getLayer_setLayer_same _ hlc.2,
          layerKeys_layerInsert_new _ hlc.1]
      · have hne : lc ≠ l := fun hc => hnd2.1 (hc ▸ hl)
        rw [hmem l hl, getLayer_setLayer_ne layers _ hne]
    · intro l hl
      have hl1 : l ∉ rest := fun hc => hl (List.mem_cons_of_mem lc hc)
      have hl2 : l ≠ lc := fun hc => hl (hc ▸ List.mem_cons_self lc rest)
      rw [hother l hl1, getLayer_setLayer_ne layers _ (fun hc => hl2 hc.symm)]

theorem nodup_append_singleton {l : List Nat} {a : Nat} (hnd : l.Nodup) (ha : a ∉ l) :
    (l ++ [a]).Nodup := by
  simp [List.nodup_append, hnd, ha]

theorem insert_loop_once [LinearOrder D] [Inhabited V] (dist : V → V → D) (elements : List V)
    (M M0 EFC idn : Nat) (q : V) (layers : List Layer) (ep m : Nat)
    (hep : ep ∈ layerKeys (getLayer layers m))
    (hid : idn ∉ layerKeys (getLayer layers m)) :
    ∃ layerO n,
      connect_neighbors dist elements (if m = 0 then M0 else M) idn q
          (layerInsert (getLayer layers m) idn
            (select_neighbors_simple (search_layer dist elements (getLayer layers m) q ep EFC)
              (if m = 0 then M0 else M)))
          (select_neighbors_simple (search_layer dist elements (getLayer layers m) q ep EFC)
            (if m = 0 then M0 else M)) = some layerO ∧
        (search_layer dist elements (getLayer layers m) q ep EFC).head? = some n ∧
        layerKeys layerO = layerKeys (getLayer layers m) ++ [idn] ∧
        n.2 ∈ layerKeys (getLayer layers m) := by
  obtain ⟨hne, _, hsub, _, _⟩ := search_layer_out dist elements (getLayer layers m) q ep EFC
  have hwids : ∀ p ∈ search_layer dist elements (getLayer layers m) q ep EFC,
      p.2 ∈ layerKeys (getLayer layers m) := by
    intro p hp
    rcases hsub p hp with h | h
    · exact h ▸ hep
    · exact h
  have hnb : ∀ e ∈ select_neighbors_simple
      (search_layer dist elements (getLayer layers m) q ep EFC) (if m = 0 then M0 else M),
      e ∈ layerKeys (getLayer layers m) := by
    intro e he
    rcases List.mem_map.mp (select_neighbors_simple_subset he) with ⟨p, hp, hpe⟩
    exact hpe ▸ hwids p hp
  have hkeysIns : layerKeys (layerInsert (getLayer layers m) idn
      (select_neighbors_simple (search_layer dist elements (getLayer layers m) q ep EFC)
        (if m = 0 then M0 else M))) = layerKeys (getLayer layers m) ++ [idn] :=
    layerKeys_layerInsert_new _ hid
  rcases connect_neighbors_isSome dist elements (if m = 0 then M0 else M) idn q
      (select_neighbors_simple (search_layer dist elements (getLayer layers m) q ep EFC)
        (if m = 0 then M0 else M)) _
      (fun e he => by
        rw [hkeysIns]
        exact List.mem_append.mpr (Or.inl (hnb e he))) with ⟨layerO, hcn⟩
  cases hhd : (search_layer dist elements (getLayer layers m) q ep EFC).head? with
  | none =>
    exact absurd (List.head?_eq_none_iff.mp hhd) hne
  | some n =>
    refine ⟨layerO, n, hcn, rfl, ?_, ?_⟩
    · rw [(connect_neighbors_eq_props dist elements _ idn q _ _ _ hcn).1, hkeysIns]
    · exact hwids n (List.mem_of_mem_head? hhd)

theorem insert_loop_mem [LinearOrder D] [Inhabited V] (dist : V → V → D) (elements : List V)
    (M M0 EFC idn : Nat) (q : V) :
    ∀ (m : Nat) (layers : List Layer) (ep : Nat),
      (∀ l, (layerKeys (getLayer layers l)).Nodup) →
      (∀ l, l ≤ m → idn ∉ layerKeys (getLayer layers l)) →
      (∀ l l', l' ≤ l → l ≤ m → layerKeys (getLayer layers l) ⊆ layerKeys (getLayer layers l')) →
      ep ∈ layerKeys (getLayer layers m) → m < layers.length →
      ∃ out, insert_loop dist elements M M0 EFC idn q ((List.range (m + 1)).reverse) layers ep
          = some out ∧
        (∀ l, l ≤ m → layerKeys (getLayer out.1 l)
          = layerKeys (getLayer layers l) ++ [idn]) ∧
        (∀ l, m < l → getLayer out.1 l = getLayer layers l) ∧
        out.1.length = layers.length := by
  intro m
  induction m with
  | zero =>
    intro layers ep hnodup hid hmono hep hm
    rcases insert_loop_once dist elements M M0 EFC idn q layers ep 0 hep (hid 0 (le_refl 0))
      with ⟨layerO, n, hcn, hhd, hkeys, hn2⟩
    refine ⟨(setLayer layers 0 layerO, n.2), ?_, ?_, ?_, by rw [setLayer_length]⟩
    · show insert_loop dist elements M M0 EFC idn q [0] layers ep = _
      unfold insert_loop
      dsimp only
      rw [hcn, hhd]
      rfl
    · intro l hl
      interval_cases l
      rw [getLayer_setLayer_same _ hm, hkeys]
    · intro l hl
      rw [getLayer_setLayer_ne layers _ (by omega)]
  | succ k ih =>
    intro layers ep hnodup hid hmono hep hm
    rcases insert_loop_once dist elements M M0 EFC idn q layers ep (k + 1) hep
      (hid (k + 1) (le_refl _)) with ⟨layerO, n, hcn, hhd, hkeys, hn2⟩
    have hrec := ih (setLayer layers (k + 1) layerO) n.2
      (fun l => by
        by_cases hl : l = k + 1
        · subst hl
          rw [getLayer_setLayer_same _ hm, hkeys]
          exact nodup_append_singleton (hnodup (k + 1)) (hid (k + 1) (le_refl _))
        · rw [getLayer_setLayer_ne layers _ (fun hc => hl hc.symm)]
          exact hnodup l)
      (fun l hl => by
        rw [getLayer_setLayer_ne layers _ (by omega)]
        exact hid l (by omega))
      (fun l l' hl' hl => by
        rw [getLayer_setLayer_ne layers _ (by omega),
          getLayer_setLayer_ne layers _ (by omega)]
        exact hmono l l' hl' (by omega))
      (by
        rw [getLayer_setLayer_ne layers _ (by omega)]
        exact hmono (k + 1) k (by omega) (le_refl _) hn2)
      (by rw [setLayer_length]; omega)
    rcases hrec with ⟨out, hloop, hlow, hhigh, hlen⟩
    refine ⟨out, ?_, ?_, ?_, by rw [hlen, setLayer_length]⟩
    · rw [range_reverse_succ]
      unfold insert_loop
      dsimp only
      rw [hcn, hhd]
      exact hloop
    · intro l hl
      by_cases hlk : l ≤ k
      · rw [hlow l hlk, getLayer_setLayer_ne layers _ (by omega)]
      · have hleq : l = k + 1 := by omega
        rw [hleq, hhigh (k + 1) (by omega), getLayer_setLayer_same _ hm, hkeys]
    · intro l hl
      rw [hhigh l (by omega), getLayer_setLayer_ne layers _ (by omega)]

theorem descend_mem [LinearOrder D] [Inhabited V] (dist : V → V → D) (elements : List V)
    (layers : List Layer) (q : V) :
    ∀ (cnt lo : Nat) (ep : Nat),
      (∀ l l', l' ≤ l → layerKeys (getLayer layers l) ⊆ layerKeys (getLayer layers l')) →
      ep ∈ layerKeys (getLayer layers (lo + cnt)) →
      descend dist elements layers q ((List.range' (lo + 1) cnt).reverse) ep
        ∈ layerKeys (getLayer layers lo)
  | 0, lo, ep, hmono, hep => by
    simpa using hep
  | cnt + 1, lo, ep, hmono, hep => by
    rw [range'_reverse_succ]
    unfold descend
    dsimp only
    obtain ⟨hne, _, hsub, _, _⟩ :=
      search_layer_out dist elements (getLayer layers (lo + 1 + cnt)) q ep 1
    cases hhd : (search_layer dist elements (getLayer layers (lo + 1 + cnt)) q ep 1).head? with
    | none => exact absurd (List.head?_eq_none_iff.mp hhd) hne
    | some n =>
      have hn : n.2 = ep ∨ n.2 ∈ layerKeys (getLayer layers (lo + 1 + cnt)) :=
        hsub n (List.mem_of_mem_head? hhd)
      have hin : n.2 ∈ layerKeys (getLayer layers (lo + 1 + cnt)) := by
        rcases hn with h | h
        · rw [h]
          have harr : lo + 1 + cnt = lo + (cnt + 1) := by omega
          exact harr ▸ hep
        · exact h
      exact descend_mem dist elements layers q cnt lo n.2 hmono
        (hmono (lo + 1 + cnt) (lo + cnt) (by omega) hin)

theorem keys_mono_of_char {V : Type} {hist : List (V × Nat)} {layers : List Layer}
    (hmem : ∀ l i, i ∈ layerKeys (getLayer layers l) ↔ ∃ p, hist.get? i = some p ∧ l ≤ p.2) :
    ∀ l l', l' ≤ l → layerKeys (getLayer layers l) ⊆ layerKeys (getLayer layers l') := by
  intro l l' hl i hi
  rcases (hmem l i).mp hi with ⟨p, hp, hlp⟩
  exact (hmem l' i).mpr ⟨p, hp, le_trans hl hlp⟩

theorem histTop_append {V : Type} (hist : List (V × Nat)) (p : V × Nat) :
    histTop (hist ++ [p]) = max (histTop hist) (p.2 + 1) := by
  unfold histTop
  rw [List.foldl_append]
  rfl

theorem hnsw_insert_master [LinearOrder D] [Inhabited V] (dist : V → V → D) (M M0 EFC : Nat)
    (hist : List (V × Nat)) (st : Hnsw V) (hinv : MasterInv hist st) (q : V) (level : Nat) :
    ∃ st', Hnsw.insert dist M M0 EFC st q level = some st' ∧
      MasterInv (hist ++ [(q, level)]) st' := by
  obtain ⟨helem, hlen, hnodup, hmem, hepc⟩ := hinv
  have hidlen : st.elements.length = hist.length := by rw [helem, List.length_map]
  have hidfresh : ∀ l, hist.length ∉ layerKeys (getLayer st.layers l) := by
    intro l hm
    rcases (hmem l _).mp hm with ⟨p, hp, _⟩
    have := get?_some_lt hp
    omega
  have hgetE : ∀ l, getLayer (st.layers ++ List.replicate (level + 1 - st.layers.length) []) l
      = getLayer st.layers l := fun l => getLayer_append_replicate _ _ l
  have hlenE : (st.layers ++ List.replicate (level + 1 - st.layers.length) []).length
      = max st.layers.length (level + 1) := by
    rw [List.length_append, List.length_replicate]
    omega
  unfold Hnsw.insert
  cases hep : st.enter_point with
  | none =>
    have hhist : hist = [] := by rw [hep] at hepc; exact hepc
    subst hhist
    have hl0 : st.layers = [] := List.length_eq_zero.mp (by rw [hlen]; rfl)
    have hel0 : st.elements = [] := by rw [helem]; rfl
    dsimp only
    refine ⟨_, rfl, ?_, ?_, ?_, ?_, ?_⟩
    · show st.elements ++ [q] = [(q, level)].map fun p => p.1
      rw [hel0]
      rfl
    · show (insert_first_element st.elements.length level _).length = histTop [(q, level)]
      unfold insert_first_element
      rw [foldl_insert_empty_length, hlenE, hl0]
      show max 0 (level + 1) = histTop [(q, level)]
      unfold histTop
      simp
    · intro l
      unfold insert_first_element
      rw [foldl_insert_empty_get _ _ _ (List.nodup_range _)
        (fun lc hlc => by
          rw [hlenE, hl0]
          simp only [List.length_nil, Nat.zero_max]
          exact List.mem_range.mp hlc) l]
      split
      · rw [hgetE, hl0]
        show (layerKeys (layerInsert [] st.elements.length [])).Nodup
        simp [layerInsert, layerKeys]
      · rw [hgetE, hl0]
        show (layerKeys (getLayer ([] : List Layer) l)).Nodup
        simp [getLayer, layerKeys]
    · intro l i
      unfold insert_first_element
      rw [foldl_insert_empty_get _ _ _ (List.nodup_range _)
        (fun lc hlc => by
          rw [hlenE, hl0]
          simp only [List.length_nil, Nat.zero_max]
          exact List.mem_range.mp hlc) l]
      rw [hel0]
      split
      · rename_i hrange
        have hll : l ≤ level := by
          have := List.mem_range.mp hrange
          omega
        rw [hgetE, hl0]
        show i ∈ layerKeys (layerInsert [] 0 []) ↔ _
        simp only [layerInsert, layerKeys]
        constructor
        · intro hi
          simp at hi
          subst hi
          exact ⟨(q, level), rfl, hll⟩
        · intro ⟨p, hp, _⟩
          cases i with
          | zero => simp
          | succ j => simp at hp
      · rename_i hrange
        have hll : level < l := by
          by_contra hc
          exact hrange (List.mem_range.mpr (by omega))
        rw [hgetE, hl0]
        show i ∈ layerKeys (getLayer ([] : List Layer) l) ↔ _
        simp only [getLayer, layerKeys]
        constructor
        · intro hi
          simp at hi
        · intro ⟨p, hp, hlp⟩
          cases i with
          | zero =>
            simp only [List.get?] at hp
            cases hp
            omega
          | succ j => simp at hp
    · show match some st.elements.length with
        | none => [(q, level)] = []
        | some e => ∃ p, [(q, level)].get? e = some p ∧ p.2 + 1 = histTop [(q, level)]
      dsimp only
      rw [hel0]
      refine ⟨(q, level), rfl, ?_⟩
      unfold histTop
      simp
  | some ep =>
    obtain ⟨pe, hpe, hpetop⟩ : ∃ p, hist.get? ep = some p ∧ p.2 + 1 = histTop hist := by
      rw [hep] at hepc
      exact hepc
    have hNpos : 1 ≤ st.layers.length := by
      rw [hlen, ← hpetop]
      omega
    have hpelt : pe.2 = st.layers.length - 1 := by
      rw [hlen] at hNpos ⊢
      omega
    dsimp only
    have hmonoE : ∀ l l', l' ≤ l →
        layerKeys (getLayer (st.layers ++ List.replicate (level + 1 - st.layers.length) []) l)
          ⊆ layerKeys
            (getLayer (st.layers ++ List.replicate (level + 1 - st.layers.length) []) l') := by
      intro l l' h
      rw [hgetE, hgetE]
      exact keys_mono_of_char hmem l l' h
    have hepK : ∀ l, l ≤ st.layers.length - 1 →
        ep ∈ layerKeys
          (getLayer (st.layers ++ List.replicate (level + 1 - st.layers.length) []) l) := by
      intro l hl
      rw [hgetE]
      exact (hmem l ep).mpr ⟨pe, hpe, by omega⟩
    have hep1K : descend dist st.elements
        (st.layers ++ List.replicate (level + 1 - st.layers.length) []) q
        ((List.range' (level + 1) (st.layers.length - 1 - level)).reverse) ep
        ∈ layerKeys (getLayer (st.layers ++ List.replicate (level + 1 - st.layers.length) [])
          (min (st.layers.length - 1) level)) := by
      by_cases hc : st.layers.length - 1 ≤ level
      · have h0 : st.layers.length - 1 - level = 0 := by omega
        rw [h0]
        show descend dist st.elements _ q [] ep ∈ _
        unfold descend
        exact hepK (min (st.layers.length - 1) level) (by omega)
      · push_neg at hc
        have hmin : min (st.layers.length - 1) level = level := by omega
        rw [hmin]
        have harr : st.layers.length - 1 = level + (st.layers.length - 1 - level) := by omega
        exact descend_mem dist st.elements _ q (st.layers.length - 1 - level) level ep hmonoE
          (by rw [← harr]; exact hepK _ (le_refl _))
    rcases insert_loop_mem dist st.elements M M0 EFC st.elements.length q
      (min (st.layers.length - 1) level)
      (st.layers ++ List.replicate (level + 1 - st.layers.length) [])
      (descend dist st.elements
        (st.layers ++ List.replicate (level + 1 - st.layers.length) []) q
        ((List.range' (level + 1) (st.layers.length - 1 - level)).reverse) ep)
      (fun l => by rw [hgetE]; exact hnodup l)
      (fun l _ => by rw [hgetE, hidlen]; exact hidfresh l)
      (fun l l' h _ => by rw [hgetE, hgetE]; exact keys_mono_of_char hmem l l' h)
      hep1K
      (by rw [hlenE]; omega)
      with ⟨out, hloop, hlow, hhigh, hlenO⟩
    rcases extend_upper_mem st.elements.length
      (List.range' (st.layers.length - 1 + 1) (level - (st.layers.length - 1))) out.1
      (List.nodup_range' _ _)
      (fun lc hlc => by
        have hlc1 := List.mem_range'_1.mp hlc
        constructor
        · rw [hhigh lc (by omega), hgetE, hidlen]
          exact hidfresh lc
        · rw [hlenO, hlenE]
          omega)
      with ⟨layersO, hext, hextmem, hextother, hextlen⟩
    have hie : insert_element dist st.elements M M0 EFC q ep st.elements.length level
        (st.layers.length - 1)
        (st.layers ++ List.replicate (level + 1 - st.layers.length) []) = some layersO := by
      unfold insert_element
      dsimp only
      rw [hloop]
      exact hext
    rw [hie]
    have hkeysO : ∀ l, layerKeys (getLayer layersO l)
        = if l ≤ level then layerKeys (getLayer st.layers l) ++ [hist.length]
          else layerKeys (getLayer st.layers l) := by
      intro l
      by_cases h1 : l ≤ min (st.layers.length - 1) level
      · rw [if_pos (by omega)]
        rw [hextother l (by
          intro hc
          have := List.mem_range'_1.mp hc
          omega)]
        rw [hlow l h1, hgetE, hidlen]
      · by_cases h2 : l ≤ level
        · rw [if_pos h2]
          have hl1 : st.layers.length - 1 < l := by omega
          rw [hextmem l (List.mem_range'_1.mpr (by omega))]
          rw [hhigh l (by omega), hgetE, hidlen]
        · rw [if_neg h2]
          rw [hextother l (by
            intro hc
            have := List.mem_range'_1.mp hc
            omega)]
          rw [hhigh l (by omega), hgetE]
    refine ⟨_, rfl, ?_, ?_, ?_, ?_, ?_⟩
    · show st.elements ++ [q] = (hist ++ [(q, level)]).map fun p => p.1
      rw [helem, List.map_append]
      rfl
    · show layersO.length = histTop (hist ++ [(q, level)])
      rw [hextlen, hlenO, hlenE, histTop_append, hlen]
    · intro l
      rw [hkeysO]
      split
      · exact nodup_append_singleton (hnodup l) (hidfresh l)
      · exact hnodup l
    · intro l i
      rw [hkeysO]
      split
      · rename_i h2
        rw [List.mem_append, List.mem_singleton]
        constructor
        · intro hi
          rcases hi with hi | hi
          · rcases (hmem l i).mp hi with ⟨p, hp, hlp⟩
            exact ⟨p, by rw [List.get?_append (get?_some_lt hp)]; exact hp, hlp⟩
          · subst hi
            exact ⟨(q, level), List.get?_concat_length hist (q, level), h2⟩
        · rintro ⟨p, hp, hlp⟩
          by_cases hiN : i < hist.length
          · rw [List.get?_append hiN] at hp
            exact Or.inl ((hmem l i).mpr ⟨p, hp, hlp⟩)
          · by_cases hiE : i = hist.length
            · exact Or.inr hiE
            · exfalso
              rw [List.get?_len_le (by simp; omega)] at hp
              cases hp
      · rename_i h2
        constructor
        · intro hi
          rcases (hmem l i).mp hi with ⟨p, hp, hlp⟩
          exact ⟨p, by rw [List.get?_append (get?_some_lt hp)]; exact hp, hlp⟩
        · rintro ⟨p, hp, hlp⟩
          by_cases hiN : i < hist.length
          · rw [List.get?_append hiN] at hp
            exact (hmem l i).mpr ⟨p, hp, hlp⟩
          · by_cases hiE : i = hist.length
            · exfalso
              subst hiE
              rw [List.get?_concat_length] at hp
              cases hp
              omega
            · exfalso
              rw [List.get?_len_le (by simp; omega)] at hp
              cases hp
    · show match (if st.layers.length - 1 < level then some st.elements.length
          else some ep) with
        | none => hist ++ [(q, level)] = []
        | some e => ∃ p, (hist ++ [(q, level)]).get? e = some p ∧
            p.2 + 1 = histTop (hist ++ [(q, level)])
      by_cases hc : st.layers.length - 1 < level
      · rw [if_pos hc]
        show ∃ p, (hist ++ [(q, level)]).get? st.elements.length = some p ∧
          p.2 + 1 = histTop (hist ++ [(q, level)])
        rw [hidlen]
        refine ⟨(q, level), List.get?_concat_length hist (q, level), ?_⟩
        rw [histTop_append, ← hlen]
        show level + 1 = max st.layers.length (level + 1)
        rw [Nat.max_eq_right (by omega)]
      · rw [if_neg hc]
        show ∃ p, (hist ++ [(q, level)]).get? ep = some p ∧
          p.2 + 1 = histTop (hist ++ [(q, level)])
        refine ⟨pe, by rw [List.get?_append (get?_some_lt hpe)]; exact hpe, ?_⟩
        rw [histTop_append, ← hlen]
        rw [Nat.max_eq_left (by omega)]
        omega

theorem masterInv_new {V : Type} : MasterInv ([] : List (V × Nat)) (Hnsw.new V) := by
  refine ⟨rfl, rfl, ?_, ?_, rfl⟩
  · intro l
    simp [Hnsw.new, getLayer, layerKeys]
  · intro l i
    simp [Hnsw.new, getLayer, layerKeys]

theorem buildIndex_master [LinearOrder D] [Inhabited V] (dist : V → V → D) (M M0 EFC : Nat) :
    ∀ (hist : List (V × Nat)), ∃ st, buildIndex dist M M0 EFC hist = some st ∧
      MasterInv hist st := by
  intro hist
  induction hist using List.reverseRecOn with
  | nil =>
    refine ⟨Hnsw.new V, rfl, rfl, rfl, ?_, ?_, rfl⟩
    · intro l
      simp [Hnsw.new, getLayer, layerKeys]
    · intro l i
      simp [Hnsw.new, getLayer, layerKeys]
  | append_singleton hist x ih =>
    rcases ih with ⟨st0, hb0, hinv0⟩
    rcases hnsw_insert_master dist M M0 EFC hist st0 hinv0 x.1 x.2 with ⟨st1, hins, hinv1⟩
    refine ⟨st1, ?_, hinv1⟩
    unfold buildIndex at hb0 ⊢
    rw [List.foldl_append, hb0, List.foldl_cons, List.foldl_nil, Option.some_bind]
    exact hins

theorem nodup_subset_length_le {l l' : List Nat} (hnd : l.Nodup) (hsub : l ⊆ l') :
    l.length ≤ l'.length :=
  (List.Nodup.subperm hnd hsub).length_le

theorem keys_length_le {V : Type} {hist : List (V × Nat)} {layers : List Layer}
    (hnodup : ∀ l, (layerKeys (getLayer layers l)).Nodup)
    (hmem : ∀ l i, i ∈ layerKeys (getLayer layers l) ↔ ∃ p, hist.get? i = some p ∧ l ≤ p.2)
    (l : Nat) : (layerKeys (getLayer layers l)).length ≤ hist.length := by
  have hsub : layerKeys (getLayer layers l) ⊆ List.range hist.length := by
    intro i hi
    rcases (hmem l i).mp hi with ⟨p, hp, _⟩
    exact List.mem_range.mpr (get?_some_lt hp)
  have h := nodup_subset_length_le (hnodup l) hsub
  simpa using h

theorem knn_descend_mem [LinearOrder D] [Inhabited V] (dist : V → V → D) (elements : List V)
    (layers : List Layer) (q : V)
    (hmono : ∀ l, layerKeys (getLayer layers l) ⊆ layerKeys (getLayer layers 0)) :
    ∀ (lcs : List Nat) (ep : Nat), ep ∈ layerKeys (getLayer layers 0) →
      ∃ n, knn_descend dist elements layers q lcs ep = some n ∧
        n ∈ layerKeys (getLayer layers 0) := by
  intro lcs
  induction lcs with
  | nil => exact fun ep hep => ⟨ep, rfl, hep⟩
  | cons lc rest ih =>
    intro ep hep
    obtain ⟨hne, _, hsub, _, _⟩ := search_layer_out dist elements (getLayer layers lc) q ep 1
    cases hhd : (search_layer dist elements (getLayer layers lc) q ep 1).head? with
    | none => exact absurd (List.head?_eq_none_iff.mp hhd) hne
    | some n =>
      have hn : n ∈ search_layer dist elements (getLayer layers lc) q ep 1 :=
        List.mem_of_mem_head? (by rw [hhd]; rfl)
      have hn2 : n.2 ∈ layerKeys (getLayer layers 0) := by
        rcases hsub n hn with h | h
        · rw [h]; exact hep
        · exact hmono lc h
      rcases ih n.2 hn2 with ⟨m, hm, hm0⟩
      refine ⟨m, ?_, hm0⟩
      show knn_descend dist elements layers q (lc :: rest) ep = some m
      unfold knn_descend
      rw [hhd]
      exact hm

theorem knn_search_len [LinearOrder D] [Inhabited V] (dist : V → V → D)
    (hist : List (V × Nat)) (st : Hnsw V) (hinv : MasterInv hist st) (q : V) (k ef : Nat) :
    ∃ ns, Hnsw.knn_search dist st q k ef = some ns ∧
      ns.length ≤ min k (min (max 1 ef) hist.length) ∧
      (hist = [] → ns = []) ∧ (k = 0 → ns = []) := by
  obtain ⟨helem, hlen, hnodup, hmem, hepc⟩ := hinv
  unfold Hnsw.knn_search
  cases hep : st.enter_point with
  | none => exact ⟨[], rfl, by simp, fun _ => rfl, fun _ => rfl⟩
  | some ep =>
    dsimp only
    rw [hep] at hepc
    obtain ⟨pe, hpe, _⟩ := hepc
    have hmono : ∀ l, layerKeys (getLayer st.layers l) ⊆ layerKeys (getLayer st.layers 0) :=
      fun l => keys_mono_of_char hmem l 0 (Nat.zero_le l)
    have hep0 : ep ∈ layerKeys (getLayer st.layers 0) :=
      (hmem 0 ep).mpr ⟨pe, hpe, Nat.zero_le _⟩
    rcases knn_descend_mem dist st.elements st.layers q hmono
      ((List.range' 1 (st.layers.length - 1)).reverse) ep hep0 with ⟨ep1, hd, hd0⟩
    rw [hd]
    refine ⟨_, rfl, ?_, ?_, ?_⟩
    · obtain ⟨_, hndp, hsub, _, hbound⟩ :=
        search_layer_out dist st.elements (getLayer st.layers 0) q ep1 ef
      have hidsub : ((search_layer dist st.elements (getLayer st.layers 0) q ep1 ef).map
          fun p => p.2) ⊆ layerKeys (getLayer st.layers 0) := by
        intro i hi
        rcases List.mem_map.mp hi with ⟨p, hp, hpi⟩
        rcases hsub p hp with h | h
        · rw [← hpi, h]; exact hd0
        · rw [← hpi]; exact h
      have hlenN : (search_layer dist st.elements (getLayer st.layers 0) q ep1 ef).length
          ≤ hist.length := by
        have h1 := nodup_subset_length_le hndp hidsub
        have h2 := keys_length_le hnodup hmem 0
        rw [List.length_map] at h1
        omega
      rw [List.length_take]
      exact le_min (min_le_left _ _)
        (le_trans (min_le_right _ _) (le_min hbound hlenN))
    · intro hh
      subst hh
      simp at hpe
    · intro hk
      subst hk
      simp

theorem buildIndexF_master [LinearOrder D] [Inhabited V] [DecidableEq V] (dist : V → V → D)
    (M M0 EFC : Nat) :
    ∀ (hist : List (V × Nat × Nat)), ∃ idx, buildIndexF dist M M0 EFC hist = some idx ∧
      MasterInv (hist.map fun t => (t.1, t.2.2)) idx.h := by
  intro hist
  induction hist using List.reverseRecOn with
  | nil => exact ⟨HnswIndex.new V, rfl, masterInv_new⟩
  | append_singleton hist x ih =>
    rcases ih with ⟨idx0, hb0, hinv0⟩
    rcases hnsw_insert_master dist M M0 EFC (hist.map fun t => (t.1, t.2.2)) idx0.h hinv0
      x.1 x.2.2 with ⟨h1, hins, hinv1⟩
    refine ⟨⟨h1, mapInsert idx0.d x.1 (match mapLookup idx0.d x.1 with
      | some ds => Docs.insertDoc ds x.2.1
      | none => Docs.One x.2.1)⟩, ?_, ?_⟩
    · unfold buildIndexF at hb0 ⊢
      rw [List.foldl_append, hb0, List.foldl_cons, List.foldl_nil, Option.some_bind]
      show HnswIndex.insertIdx dist M M0 EFC idx0 x.1 x.2.1 x.2.2 = _
      unfold HnswIndex.insertIdx
      rw [hins]
    · show MasterInv ((hist ++ [x]).map fun t => (t.1, t.2.2)) h1
      rw [List.map_append]
      exact hinv1

end Engine

/-! ## Claims C3 and C10 -/

/-- C3 counterexample: with `ef = 0` the claim fails — the source's beam
keeps the entry point (the result has length 1, not at most `ef = 0`), and
differs from the claim's described algorithm, which truncates the beam to
its `ef` smallest.  Concrete input: two one-dimensional integer vectors
`[5]` and `[0]`, layer `{0: [], 1: [0]}`, query `0`, entry point 0. -/
theorem c3_counterexample :
    Engine.search_layer Engine.distZ [(5 : ℤ), 0] [(0, []), (1, [0])] 0 0 0 = [((0 : ℤ), 1)] ∧
      Engine.spec_search_layer Engine.distZ [(5 : ℤ), 0] [(0, []), (1, [0])] 0 0 0 = [] ∧
      ¬((Engine.search_layer Engine.distZ [(5 : ℤ), 0] [(0, []), (1, [0])] 0 0 0).length ≤ 0) :=
  ⟨by decide, by decide, by decide⟩

/-- C3 (amended): for every `ef ≥ 1`, `search_layer` computes exactly the
beam search described by the claim (singleton start on `ep`; pop the
smallest candidate; `f_dist` the largest remaining candidate distance, or
the popped distance when none remain; stop when the popped distance exceeds
it; in-edge neighbour enumeration over all layer entries; admission of an
unvisited entry when its distance is below `f_dist` or the beam is not
full; beam truncated to its `ef` smallest), and the returned beam is
ordered by `(distance, id)` with size at most `ef`. -/
theorem c3_amended {V D : Type} [LinearOrder D] [Inhabited V] (dist : V → V → D)
    (elements : List V) (entries : Engine.Layer) (q : V) (ep ef : Nat) (hef : 1 ≤ ef) :
    Engine.search_layer dist elements entries q ep ef
        = Engine.spec_search_layer dist elements entries q ep ef ∧
      (Engine.search_layer dist elements entries q ep ef).Pairwise Engine.pnLt ∧
      (Engine.search_layer dist elements entries q ep ef).length ≤ ef := by
  have hout := Engine.search_layer_out dist elements entries q ep ef
  exact ⟨Engine.search_layer_eq_spec dist elements entries q ep ef hef, hout.2.2.2.1,
    le_trans hout.2.2.2.2 (le_of_eq (Nat.max_eq_right hef))⟩

/-- C3 witness: the amended equivalence applied at a concrete input with
`ef = 1`. -/
theorem c3_witness :
    1 ≤ 1 ∧
      Engine.search_layer Engine.distZ [(5 : ℤ), 0] [(0, []), (1, [0])] 0 0 1
        = Engine.spec_search_layer Engine.distZ [(5 : ℤ), 0] [(0, []), (1, [0])] 0 0 1 :=
  ⟨le_refl 1,
    (c3_amended Engine.distZ [(5 : ℤ), 0] [(0, []), (1, [0])] 0 0 1 (le_refl 1)).1⟩

/-- C4: degree bound invariant — after every completed sequence of inserts
(with positive degree targets `M`, `M0`, as the design presumes), every
node's neighbour list in the base layer has length at most `M0`, and in
every layer at least 1 at most `M`. -/
theorem c4_degree_bound {V D : Type} [LinearOrder D] [Inhabited V] (dist : V → V → D)
    (M M0 EFC : Nat) (hM : 1 ≤ M) (hM0 : 1 ≤ M0) (hist : List (V × Nat))
    (st : Engine.Hnsw V) (hbuild : Engine.buildIndex dist M M0 EFC hist = some st)
    (l : Nat) (p : Nat × List Nat) (hp : p ∈ Engine.getLayer st.layers l) :
    p.2.length ≤ if l = 0 then M0 else M :=
  Engine.buildIndex_deg dist M M0 EFC hM hM0 hist st hbuild l p hp

/-- C4 witness: the degree bound applied to a concrete three-insert history
with `M = 2`, `M0 = 4`, `EFC = 10`, at the base-layer entry of element 2. -/
theorem c4_witness :
    (1 ≤ 2 ∧ 1 ≤ 4 ∧ Engine.buildIndex Engine.distZ 2 4 10 Engine.histW = some Engine.stW ∧
        ((2 : Nat), ([1, 0] : List Nat)) ∈ Engine.getLayer Engine.stW.layers 0) ∧
      (((2 : Nat), ([1, 0] : List Nat)).2.length ≤ if 0 = 0 then 4 else 2) :=
  ⟨⟨by decide, by decide, by decide, by decide⟩,
    c4_degree_bound Engine.distZ 2 4 10 (by decide) (by decide) Engine.histW Engine.stW
      (by decide) 0 (2, [1, 0]) (by decide)⟩

/-- C10: the early-stop branch of `search_layer` is dead code — the function
equals its no-break variant on every input (the popped candidate is the
minimum of the sorted candidate set, so its distance never exceeds
`f_dist`), and the loop ends only by exhausting the candidate set: running
it with any amount of extra fuel yields the same result. -/
theorem c10_break_dead {V D : Type} [LinearOrder D] [Inhabited V] (dist : V → V → D)
    (elements : List V) (entries : Engine.Layer) (q : V) (ep ef : Nat) :
    Engine.search_layer dist elements entries q ep ef
        = Engine.search_layerNB dist elements entries q ep ef ∧
      ∀ extra, Engine.search_layerFuel extra dist elements entries q ep ef
        = Engine.search_layer dist elements entries q ep ef :=
  ⟨Engine.search_layer_eq_noBreak dist elements entries q ep ef,
    fun extra => Engine.search_layer_fuel_stable dist elements entries q ep ef extra⟩

/-! ## Claims C2, C5, C6 and C8 -/

/-- C2 counterexample: the claim's "length exactly min(k, ef, N)" fails.
Under `M = M0 = 1` the base layer's in-edge graph disconnects: after
inserting vectors 0, 10, 11 (doc ids 100, 101, 102, all at level 0), the
element holding vector 0 retains no in-edge at layer 0, so the beam search
for query 11 with `k = 3`, `ef = 10` on the three-element index finds only
one element — the result has length 1 although min(3, 10, 3) = 3. -/
theorem c2_counterexample :
    ((Engine.buildIndexF Engine.distZ 1 1 500 Engine.histC2).bind fun idx =>
        (Engine.HnswIndex.searchIdx Engine.distZ idx 11 3 10).map List.length) = some 1 ∧
      Engine.histC2.length = 3 ∧ min 3 (min 10 3) = 3 ∧ (1 : Nat) ≠ 3 :=
  ⟨by decide, by decide, by decide, by decide⟩

/-- C2 (amended): for every completed index, every search succeeds (an
`ef < k` request included): searching an empty index returns the empty
result, `k = 0` returns the empty result, the facade result never exceeds
`k` entries, and the engine's neighbour list has length at most
min(k, max(1, ef), N) — an upper bound only: reverse-edge disconnection can
make it shorter, and `ef = 0` still yields one engine neighbour. -/
theorem c2_amended {V D : Type} [LinearOrder D] [Inhabited V] [DecidableEq V]
    (dist : V → V → D) (M M0 EFC : Nat) (hist : List (V × Nat × Nat)) (q : V) (k ef : Nat)
    (idx : Engine.HnswIndex V) (hb : Engine.buildIndexF dist M M0 EFC hist = some idx) :
    ∃ r, Engine.HnswIndex.searchIdx dist idx q k ef = some r ∧ r.length ≤ k ∧
      (hist = [] → r = []) ∧ (k = 0 → r = []) ∧
      ∃ ns, Engine.Hnsw.knn_search dist idx.h q k ef = some ns ∧
        ns.length ≤ min k (min (max 1 ef) hist.length) := by
  rcases Engine.buildIndexF_master dist M M0 EFC hist with ⟨idx', hb', hinv⟩
  rw [hb] at hb'
  injection hb' with heq
  subst heq
  rcases Engine.knn_search_len dist (hist.map fun t => (t.1, t.2.2)) idx.h hinv q k ef
    with ⟨ns, hns, hlen, hemp, hk0⟩
  rw [List.length_map] at hlen
  refine ⟨Engine.knnResultBuild k idx.h.elements idx.d ns, ?_, ?_, ?_, ?_, ns, hns, hlen⟩
  · unfold Engine.HnswIndex.searchIdx
    rw [hns]
    rfl
  · unfold Engine.knnResultBuild
    rw [List.length_take]
    exact min_le_left _ _
  · intro hh
    have hns0 : ns = [] := hemp (by rw [hh]; rfl)
    rw [hns0]
    simp [Engine.knnResultBuild]
  · intro hk
    subst hk
    simp [Engine.knnResultBuild]

/-- C2 witness: the amended theorem applied to the empty index (the spec's
scenario S4), with `k = 5` and `ef = 50`. -/
theorem c2_witness :
    Engine.buildIndexF Engine.distZ 1 1 500 ([] : List (ℤ × Nat × Nat))
        = some (Engine.HnswIndex.new ℤ) ∧
      ∃ r, Engine.HnswIndex.searchIdx Engine.distZ (Engine.HnswIndex.new ℤ) 7 5 50 = some r ∧
        r.length ≤ 5 ∧ (([] : List (ℤ × Nat × Nat)) = [] → r = []) ∧ ((5 : Nat) = 0 → r = []) ∧
        ∃ ns, Engine.Hnsw.knn_search Engine.distZ (Engine.HnswIndex.new ℤ).h 7 5 50 = some ns ∧
          ns.length ≤ min 5 (min (max 1 50) ([] : List (ℤ × Nat × Nat)).length) :=
  ⟨by decide, c2_amended Engine.distZ 1 1 500 [] 7 5 50 (Engine.HnswIndex.new ℤ) (by decide)⟩

/-- C5: layer-membership and id-density invariant — after every completed
sequence of inserts, the engine's element table holds the inserted vectors
in insertion order (so the assigned element ids are exactly the positions
0..N−1), every id below N is present in the base layer, and an id `i` is a
key of layer `l` exactly when `l` is at most the level drawn at `i`'s
insert. -/
theorem c5_membership {V D : Type} [LinearOrder D] [Inhabited V] (dist : V → V → D)
    (M M0 EFC : Nat) (hist : List (V × Nat)) :
    ∃ st, Engine.buildIndex dist M M0 EFC hist = some st ∧
      st.elements = hist.map (fun p => p.1) ∧
      st.elements.length = hist.length ∧
      (∀ i, i ∈ Engine.layerKeys (Engine.getLayer st.layers 0) ↔ i < hist.length) ∧
      (∀ l i, i ∈ Engine.layerKeys (Engine.getLayer st.layers l) ↔
        ∃ p, hist.get? i = some p ∧ l ≤ p.2) := by
  rcases Engine.buildIndex_master dist M M0 EFC hist with
    ⟨st, hb, helem, hlen, hnodup, hmem, hepc⟩
  refine ⟨st, hb, helem, by rw [helem, List.length_map], ?_, hmem⟩
  intro i
  rw [hmem 0 i]
  constructor
  · rintro ⟨p, hp, _⟩
    exact Engine.get?_some_lt hp
  · intro hi
    exact ⟨hist.get ⟨i, hi⟩, List.get?_eq_get hi, Nat.zero_le _⟩

/-- C6: driven through the documented interface, the structural-violation
branches are unreachable — every insert on a completed index returns a new
state (no selected neighbour id is ever missing from a layer map), layer
keys stay duplicate-free (no id is inserted twice into one layer), and
every `knn_search` completes (the beam of a populated layer, and hence the
descent, never comes back empty). -/
theorem c6_unreachable_safe {V D : Type} [LinearOrder D] [Inhabited V] (dist : V → V → D)
    (M M0 EFC : Nat) (hist : List (V × Nat)) (q : V) (k ef : Nat) :
    ∃ st, Engine.buildIndex dist M M0 EFC hist = some st ∧
      (∀ l, (Engine.layerKeys (Engine.getLayer st.layers l)).Nodup) ∧
      (∀ q' level, (Engine.Hnsw.insert dist M M0 EFC st q' level).isSome) ∧
      ∃ ns, Engine.Hnsw.knn_search dist st q k ef = some ns := by
  rcases Engine.buildIndex_master dist M M0 EFC hist with ⟨st, hb, hinv⟩
  rcases Engine.knn_search_len dist hist st hinv q k ef with ⟨ns, hns, _⟩
  have hins : ∀ q' level, (Engine.Hnsw.insert dist M M0 EFC st q' level).isSome := by
    intro q' level
    rcases Engine.hnsw_insert_master dist M M0 EFC hist st hinv q' level with ⟨st', h, _⟩
    rw [h]
    rfl
  obtain ⟨_, _, hnodup, _, _⟩ := hinv
  exact ⟨st, hb, hnodup, hins, ns, hns⟩

/-- C8: inserting vector 3 twice, under doc ids 1 then 2 (`M = 12`,
`M0 = 24`, `EFC = 500`), promotes the facade's vec-to-docs entry from
`One 1` to `Many [1, 2]`, and `search(3, k = 2, ef = 10)` returns exactly
both doc ids at distance 0 — length exactly 2. -/
theorem c8_shared_vector :
    ((Engine.buildIndexF Engine.distZ 12 24 500 [((3 : ℤ), 1, 0)]).map fun idx =>
        Engine.mapLookup idx.d 3) = some (some (Engine.Docs.One 1)) ∧
      ((Engine.buildIndexF Engine.distZ 12 24 500 Engine.histC8).map fun idx =>
        Engine.mapLookup idx.d 3) = some (some (Engine.Docs.Many [1, 2])) ∧
      ((Engine.buildIndexF Engine.distZ 12 24 500 Engine.histC8).bind fun idx =>
        Engine.HnswIndex.searchIdx Engine.distZ idx 3 2 10) = some [(1, (0 : ℤ)), (2, 0)] ∧
      ((Engine.buildIndexF Engine.distZ 12 24 500 Engine.histC8).bind fun idx =>
        (Engine.HnswIndex.searchIdx Engine.distZ idx 3 2 10).map List.length) = some 2 :=
  ⟨by decide, by decide, by decide, by decide⟩

end HnswVerif
